import Mathlib

/-!
Verification of the mesh "rip" operator of `source/blender/editors/mesh/editmesh_rip.cc`.

The development shallowly embeds the rip subsystem:

* the rip-selection machinery (`edbm_ripsel_looptag_helper`,
  `edbm_ripsel_edge_mark_step`, `edbm_ripsel_edge_uid_step`,
  `edbm_ripsel_edloop_pair_start_vert`, `edbm_ripsel_deselect_helper`);
* the geometric scorer (`edbm_rip_edge_side_measure`, `edbm_rip_edgedist_squared`)
  over the real numbers, with the 3D-to-2D projection treated as the external
  collaborator it is in the source;
* the face-fill reconstructor (`edbm_tagged_loop_pairs_do_fill_faces`);
* the control flow of `edbm_rip_invoke__vert`, `edbm_rip_invoke__edge` and
  `edbm_rip_invoke`.

BMesh itself (vertex/edge/face/loop arenas, manifold predicates, vertex
separation, edge splitting) is an external library from the point of view of the
translated file; its queries are modelled as explicit data carried by the mesh
values, and its mutating primitives, whose code is not part of this repository,
are modelled from the spec where a claim depends on them.

Machine integers: the loop sequence ids are C `int`s whose values stay within a
few multiples of the mesh edge count, far from overflow, so they are modelled as
unbounded `Int`; the sentinel `INVALID_UID` (`INT_MIN`) is modelled by `Option`
(`none` = sentinel).
-/

namespace RipSpec

/-- Operator return status, mirroring `OPERATOR_FINISHED` / `OPERATOR_CANCELLED`
(the only two statuses the rip operator produces). -/
inductive WmStatus where
  | finished
  | cancelled
  deriving DecidableEq, Repr

/-! ## Rip-selection mesh model

An edge as seen by the rip-selection code of `editmesh_rip.cc`.  `eid` is the
identity of the edge (pointer identity in C).  `tag` models `BM_ELEM_TAG`,
`sel` models `BM_ELEM_SELECT`, `manifold` models the external collaborator
`BM_edge_is_manifold`.  `lf` models the edge's first loop `e->l`: `none` when
the edge has no loop, otherwise the vertex cycle of that loop's face (the only
data of the loop that `edbm_rip_edge_side_measure` consumes).  A 2-manifold
edge always has a loop, so `manifold = true` is only meaningful together with
`lf = some _`. -/
structure REdge where
  eid : Nat
  v1 : Nat
  v2 : Nat
  tag : Bool
  manifold : Bool
  sel : Bool
  lf : Option (List Nat)
  deriving DecidableEq, Repr

/-- The mesh as consumed by the rip-selection code: its edge list (iteration
order of `BM_ITER_MESH`/`BM_ITER_ELEM` is the list order) plus the vertex
count `bm->totvert` (vertices are bare `Nat` ids). -/
structure RMesh where
  edges : List REdge
  totvert : Nat
  deriving Repr

/-- Sequence-id state: the per-loop index slots written by the loop tagger.
`BM_edge_loop_pair` assigns the same uid to both loops of a 2-manifold edge,
and after the split each surviving boundary loop is read back through its edge
(`e->l`), so the state is keyed by edge id.  An id absent from the list is the
`INVALID_UID` sentinel. -/
abbrev UidMap := List (Nat × Int)

/-- Look up the sequence id stored for edge `eid` (`BM_elem_index_get(e->l)`);
`none` models `INVALID_UID`. -/
def uidLookup (st : UidMap) (eid : Nat) : Option Int :=
  (st.find? (fun p => p.1 == eid)).map (fun p => p.2)

/-- Store sequence id `u` on (both loops of) edge `eid` (`BM_elem_index_set`). -/
def uidSet (st : UidMap) (eid : Nat) (u : Int) : UidMap :=
  (eid, u) :: st

/-- Edges incident to vertex `v` in mesh iteration order
(`BM_ITER_ELEM (e, v, BM_EDGES_OF_VERT)`; the BMesh disk-cycle order is
abstracted to the mesh edge-list order). -/
def edgesOfVert (m : RMesh) (v : Nat) : List REdge :=
  m.edges.filter (fun e => e.v1 == v || e.v2 == v)

/-- The other endpoint of an edge (`BM_edge_other_vert`). -/
def otherVert (e : REdge) (v : Nat) : Nat :=
  if e.v1 == v then e.v2 else e.v1

/-- Macro `IS_VISIT_POSSIBLE(e)`: the edge is 2-manifold and tagged. -/
def IS_VISIT_POSSIBLE (e : REdge) : Bool :=
  e.manifold && e.tag

/-- Macro `IS_VISIT_DONE(e)`: the edge has a loop whose index slot is no longer
the `INVALID_UID` sentinel. -/
def IS_VISIT_DONE (st : UidMap) (e : REdge) : Bool :=
  e.lf.isSome && (uidLookup st e.eid).isSome

/-- Translation of `edbm_ripsel_edge_mark_step`: at vertex `v`, find the first
unvisited tagged 2-manifold edge, stamp uid `u` onto both of its loops, and
return it; `none` when no such edge remains at `v`. -/
def edge_mark_step (m : RMesh) (st : UidMap) (v : Nat) (u : Int) :
    Option (REdge × UidMap) :=
  match (edgesOfVert m v).find? (fun e => IS_VISIT_POSSIBLE e && !IS_VISIT_DONE st e) with
  | some e => some (e, uidSet st e.eid u)
  | none => none

/-- One directional walk of `edbm_ripsel_looptag_helper` (the two `while`
loops around lines 279 and 295, which differ only in stepping `uid` by `+1`
or `-1`, here `du`).  Starting at vertex `v` with next uid `u`, repeatedly
mark-and-step; returns the updated uid state, the last edge marked (`e_step`),
the number of edges marked (`tot`), the final uid counter, and the list of
(edge id, uid) assignments made, in order.  `fuel` bounds the iteration; each
successful step marks a previously unvisited edge, so
`fuel = m.edges.length + 1` never truncates. -/
def walkDir (m : RMesh) :
    Nat → UidMap → Nat → Int → Int → UidMap × Option REdge × Nat × Int × List (Nat × Int)
  | 0, st, _, u, _ => (st, none, 0, u, [])
  | fuel + 1, st, v, u, du =>
    match edge_mark_step m st v u with
    | none => (st, none, 0, u, [])
    | some (e, st1) =>
      let r := walkDir m fuel st1 (otherVert e v) (u + du) du
      (r.1, some (match r.2.1 with | some e2 => e2 | none => e),
        r.2.2.1 + 1, r.2.2.2.1, (e.eid, u) :: r.2.2.2.2)

/-- Per-island record produced by the loop tagger: the id of the run's last
edge `e_last` (whose two loops form the `EdgeLoopPair` appended to the result),
the final `uid_start` / `uid_end` values of the helper, the edge total of the
run, and the (edge id, uid) assignments stamped while walking the run. -/
structure Island where
  last : Nat
  uid_start : Int
  uid_end : Int
  tot : Nat
  asg : List (Nat × Int)
  deriving DecidableEq, Repr

/-- The island loop of `edbm_ripsel_looptag_helper` (the outer `while (true)`):
find an unvisited tagged manifold seed edge, walk forward from its `v1`
assigning ascending uids, then walk the other direction assigning descending
uids, record the island, stride the uid counter past the range, repeat.
`fuel` bounds the number of islands; each island marks at least one edge, so
`m.edges.length + 1` never truncates. -/
def looptagLoop (m : RMesh) : Nat → UidMap → Int → UidMap × List Island
  | 0, st, _ => (st, [])
  | fuel + 1, st, uid =>
    match m.edges.find? (fun e => IS_VISIT_POSSIBLE e && !IS_VISIT_DONE st e) with
    | none => (st, [])
    | some e_first =>
      let fwd := walkDir m (m.edges.length + 1) st e_first.v1 uid 1
      let uid_end := fwd.2.2.2.1 - 1
      let bwd := walkDir m (m.edges.length + 1) fwd.1 e_first.v1 (uid - 1) (-1)
      let island : Island :=
        { last := (match fwd.2.1 with | some e2 => e2.eid | none => e_first.eid)
          uid_start := bwd.2.2.2.1
          uid_end := uid_end
          tot := fwd.2.2.1 + bwd.2.2.1
          asg := fwd.2.2.2.2 ++ bwd.2.2.2.2 }
      let rest := looptagLoop m fuel bwd.1 (uid_end + m.edges.length)
      (rest.1, island :: rest.2)

/-- Translation of `edbm_ripsel_looptag_helper`: all loop index slots start at
the `INVALID_UID` sentinel (the empty uid state), the uid counter starts at
`bm->totedge`, and the island loop runs to exhaustion.  Returns the final uid
state and the islands (the source returns the `EdgeLoopPair` array, i.e. the
two loops of each island's `last` edge). -/
def edbm_ripsel_looptag_helper (m : RMesh) : UidMap × List Island :=
  looptagLoop m (m.edges.length + 1) [] ((m.edges.length : Int))

/-- Translation of `edbm_ripsel_edge_uid_step`: from edge `e_orig` entered at
`v_prev`, move to the far vertex and look there for the edge whose loop id is
one less than `e_orig`'s; on success also return the updated `v_prev`.
When `e_orig` still holds the `INVALID_UID` sentinel no edge can match the
probe value, modelled by returning `none`. -/
def edbm_ripsel_edge_uid_step (m : RMesh) (st : UidMap) (e_orig : REdge) (v_prev : Nat) :
    Option (REdge × Nat) :=
  let v := otherVert e_orig v_prev
  match uidLookup st e_orig.eid with
  | none => none
  | some u =>
    match (edgesOfVert m v).find? (fun e => uidLookup st e.eid == some (u - 1)) with
    | some e => some (e, v)
    | none => none

/-- Translation of `edbm_ripsel_edloop_pair_start_vert`: try to step from `v1`;
if that works the walk starts at `v1`, otherwise at `v2`. -/
def edbm_ripsel_edloop_pair_start_vert (m : RMesh) (st : UidMap) (e : REdge) : Nat :=
  if (edbm_ripsel_edge_uid_step m st e e.v1).isSome then e.v1 else e.v2

/-- The edges visited by one `for (; e; e = edbm_ripsel_edge_uid_step (e, &v_prev))`
loop of `edbm_ripsel_deselect_helper`, in visit order.  The loop ids along the
walk strictly decrease, so at most `m.edges.length` distinct edges can be
visited and `fuel = m.edges.length` never truncates. -/
def uid_walk (m : RMesh) (st : UidMap) : Nat → REdge → Nat → List REdge
  | 0, e, _ => [e]
  | fuel + 1, e, v_prev =>
    e :: (match edbm_ripsel_edge_uid_step m st e v_prev with
          | some r => uid_walk m st fuel r.1 r.2
          | none => [])

/-- Full boundary-side walk from edge `e` (start vertex chosen by
`edbm_ripsel_edloop_pair_start_vert`, as in all three loops of
`edbm_ripsel_deselect_helper`). -/
def sideWalk (m : RMesh) (st : UidMap) (e : REdge) : List REdge :=
  uid_walk m st m.edges.length e (edbm_ripsel_edloop_pair_start_vert m st e)

/-! ## Geometric scorer

The 2D helpers (`len_v2v2`, `dist_squared_to_line_segment_v2`,
`normalize_v2_length`, `interp_v2_v2v2`, `mid_v3_v3v3`) live in `BLI_math`,
outside this repository's translated sources, and the projection
`ED_view3d_project_float_v2_m4` is the external Projection collaborator.  They
are modelled over the real numbers (the source uses `float`; the claims about
the scorer are sign/shape properties, for which exact real arithmetic is the
faithful idealisation). -/

/-- 2D point or vector. -/
abbrev Vec2 := ℝ × ℝ

/-- 3D point. -/
abbrev Vec3 := ℝ × ℝ × ℝ

/-- Squared 2D distance (`len_squared_v2v2`). -/
noncomputable def dist_sq_v2 (a b : Vec2) : ℝ :=
  (a.1 - b.1) ^ 2 + (a.2 - b.2) ^ 2

/-- 2D distance (`len_v2v2`). -/
noncomputable def len_v2v2 (a b : Vec2) : ℝ :=
  Real.sqrt (dist_sq_v2 a b)

/-- Modelled from the spec: `closest_to_line_segment_v2` of `BLI_math_geom`
(not among the translated sources) — the point of the segment `[l1, l2]`
closest to `p`, by clamping the orthogonal-projection parameter to `[0, 1]`
(degenerate segments yield `l1`). -/
noncomputable def closest_to_line_segment_v2 (p l1 l2 : Vec2) : Vec2 :=
  let lensq := dist_sq_v2 l1 l2
  let lam := if lensq = 0 then 0
    else ((p.1 - l1.1) * (l2.1 - l1.1) + (p.2 - l1.2) * (l2.2 - l1.2)) / lensq
  if lam ≤ 0 then l1
  else if 1 ≤ lam then l2
  else (l1.1 + lam * (l2.1 - l1.1), l1.2 + lam * (l2.2 - l1.2))

/-- Modelled from the spec: `dist_squared_to_line_segment_v2` of
`BLI_math_geom` — the squared 2D distance from `p` to the segment `[l1, l2]`. -/
noncomputable def dist_squared_to_line_segment_v2 (p l1 l2 : Vec2) : ℝ :=
  dist_sq_v2 p (closest_to_line_segment_v2 p l1 l2)

/-- Modelled from the spec: `normalize_v2_length` of `BLI_math_vector` — scale
`v` to length `unit` (the zero vector, rejected by the source's epsilon guard,
stays zero). -/
noncomputable def normalize_v2_length (v : Vec2) (unit : ℝ) : Vec2 :=
  let d := v.1 ^ 2 + v.2 ^ 2
  if d = 0 then (0, 0)
  else (v.1 * (unit / Real.sqrt d), v.2 * (unit / Real.sqrt d))

/-- Midpoint of two 3D points (`blender::math::midpoint` / `mid_v3_v3v3`). -/
noncomputable def midpoint3 (a b : Vec3) : Vec3 :=
  ((a.1 + b.1) / 2, ((a.2.1 + b.2.1) / 2, (a.2.2 + b.2.2) / 2))

/-- The view context of one rip invocation: the vertex coordinates of the mesh
(`v->co`), the composed projection to screen space (the `ARegion` plus
`projectMat` arguments of the source, i.e. the external
`ED_view3d_project_float_v2_m4` collaborator), and the mouse position
`fmval`. -/
structure View where
  co : Nat → Vec3
  proj : Vec3 → Vec2
  fmval : Vec2

/-- Modelled from the spec: `BM_face_other_vert_loop f v_prev v` — of the two
cyclic neighbours of `v` in face `f`, the one that is not `v_prev` (the
"opposite" vertex next to `v`).  `none` when `v` does not occur in the cycle. -/
def BM_face_other_vert_loop (f : List Nat) (v_prev v : Nat) : Option Nat :=
  match f.indexOf? v with
  | none => none
  | some i =>
    let nxt := f.get? ((i + 1) % f.length)
    let prv := f.get? ((i + f.length - 1) % f.length)
    match nxt, prv with
    | some a, some b => some (if a = v_prev then b else a)
    | _, _ => none

/-- The "nudge" vector of `edbm_rip_edge_side_measure`: the vector from the
projected edge midpoint to the projected midpoint of the loop-face's two
opposite vertices, normalised to length `0.01`. -/
noncomputable def side_nudge_vec (view : View) (ev1 ev2 v1_other v2_other : Nat) : Vec2 :=
  let cent := view.proj (midpoint3 (view.co v1_other) (view.co v2_other))
  let mid := view.proj (midpoint3 (view.co ev1) (view.co ev2))
  normalize_v2_length (cent.1 - mid.1, cent.2 - mid.2) (1 / 100)

/-- Core of `edbm_rip_edge_side_measure`, after the two face queries have
produced `v1_other` and `v2_other`: project the edge, nudge the mouse by
subtracting the `side_nudge_vec`, and return the projected edge length with a
sign given by whether the nudged mouse is strictly farther from the projected
edge segment than the mouse itself. -/
noncomputable def side_measure_core (view : View) (ev1 ev2 v1_other v2_other : Nat) : ℝ :=
  let e_v1_co := view.proj (view.co ev1)
  let e_v2_co := view.proj (view.co ev2)
  let vec := side_nudge_vec view ev1 ev2 v1_other v2_other
  let fmval_tweak := (view.fmval.1 - vec.1, view.fmval.2 - vec.2)
  let score := len_v2v2 e_v1_co e_v2_co
  if dist_squared_to_line_segment_v2 view.fmval e_v1_co e_v2_co <
      dist_squared_to_line_segment_v2 fmval_tweak e_v1_co e_v2_co
  then score
  else -score

/-- Translation of `edbm_rip_edge_side_measure` for an edge and its loop
(`e`, `e_l`): resolve the loop-face's two opposite vertices
(`BM_face_other_vert_loop (e_l->f, e->v2, e->v1)` and symmetrically) and apply
the core measure.  The fallback `0` covers only inputs on which the C code
would dereference a null loop (never reached by the rip flow). -/
noncomputable def edbm_rip_edge_side_measure (view : View) (e : REdge) : ℝ :=
  match e.lf with
  | none => 0
  | some f =>
    match BM_face_other_vert_loop f e.v2 e.v1, BM_face_other_vert_loop f e.v1 e.v2 with
    | some v1_other, some v2_other => side_measure_core view e.v1 e.v2 v1_other v2_other
    | _, _ => 0

/-! ## Far-side deselection -/

/-- An `EdgeLoopPair` as consumed after the split: the walk of each side starts
at the edge now owning the corresponding stored loop (`lp.l_a->e` and
`lp.l_b->e`). -/
structure DPair where
  ea : REdge
  eb : REdge

/-- Total side score of the walk starting at `e`: the accumulation
`score += edbm_rip_edge_side_measure (e, e->l, …)` over the walk. -/
noncomputable def side_score (view : View) (m : RMesh) (st : UidMap) (e : REdge) : ℝ :=
  ((sideWalk m st e).map (edbm_rip_edge_side_measure view)).sum

/-- Deselect every mesh edge visited by the walk `w`
(`BM_edge_select_set (bm, e, false)` on each; only the edge flag is modelled,
the vertex/face flushing of the collaborator does not touch edges). -/
def deselect_walk (m : RMesh) (w : List REdge) : RMesh :=
  { m with edges := m.edges.map (fun e =>
      if w.any (fun x => x.eid == e.eid) then { e with sel := false } else e) }

/-- The body of `edbm_ripsel_deselect_helper` for one `EdgeLoopPair`: walk both
sides accumulating side scores, then re-walk and deselect the side starting at
`lp.l_a->e` when `score_a > score_b`, the side starting at `lp.l_b->e`
otherwise. -/
noncomputable def deselect_pair (view : View) (st : UidMap) (m : RMesh) (lp : DPair) : RMesh :=
  let score_a := side_score view m st lp.ea
  let score_b := side_score view m st lp.eb
  deselect_walk m (sideWalk m st (if score_b < score_a then lp.ea else lp.eb))

/-- Translation of `edbm_ripsel_deselect_helper`: process each captured
`EdgeLoopPair` in turn. -/
noncomputable def edbm_ripsel_deselect_helper (view : View) (st : UidMap)
    (m : RMesh) (lps : List DPair) : RMesh :=
  lps.foldl (deselect_pair view st) m

/-! ## Face-fill reconstructor

Model of `edbm_tagged_loop_pairs_do_fill_faces` and its `UnorderedLoopPair`
input.  Loop customdata (`BM_elem_attrs_copy`) carries no semantic content for
the claims and is not modelled; `BM_face_create_verts` (external BMesh
primitive, called with `BM_CREATE_NOP`) appends a face over the given ordered
vertex list. -/

/-- An edge as referenced by a captured fill loop: identity plus endpoints.
Two loops "collapsed onto the same edge" compare equal by `eid`
(pointer comparison `l_pair[0]->e != l_pair[1]->e` in the source). -/
structure FEdge where
  eid : Nat
  v1 : Nat
  v2 : Nat
  deriving DecidableEq, Repr

/-- A captured loop: its vertex `l->v` and its edge `l->e` (as they stand when
the post-pass runs, i.e. after the split). -/
structure FLoop where
  v : Nat
  e : FEdge
  deriving DecidableEq, Repr

/-- Flag bit `ULP_FLIP_0`. -/
def ULP_FLIP_0 : Nat := 1

/-- Flag bit `ULP_FLIP_1`. -/
def ULP_FLIP_1 : Nat := 2

/-- `UnorderedLoopPair`: the two loops straddling one tagged edge before the
split, plus the winding-flip flags.  A missing loop (`none`) models the null
entries left for edges without a loop pair. -/
structure ULP where
  l0 : Option FLoop
  l1 : Option FLoop
  flag : Nat
  deriving DecidableEq, Repr

/-- The mesh as consumed by the fill pass: its faces, each an ordered vertex
cycle (`BM_face_create_verts` input order). -/
structure FMesh where
  faces : List (List Nat)
  deriving DecidableEq, Repr

/-- The other endpoint of a fill edge (`BM_edge_other_vert`). -/
def fedge_other_vert (e : FEdge) (v : Nat) : Nat :=
  if e.v1 == v then e.v2 else e.v1

/-- Modelled from the spec: `BM_edge_share_vert` (external BMesh query) — a
vertex common to both edges, `v1` probed first, `none` when disjoint. -/
def BM_edge_share_vert (e1 e2 : FEdge) : Option Nat :=
  if e1.v1 == e2.v1 || e1.v1 == e2.v2 then some e1.v1
  else if e1.v2 == e2.v1 || e1.v2 == e2.v2 then some e1.v2
  else none

/-- The ordered boundary vertices assembled by
`edbm_tagged_loop_pairs_do_fill_faces` for one pair, or `none` when the pair
is skipped (a missing loop, or both loops collapsed onto the same edge).
Quad case: `[e0.v1, e1.v1, e1.v2, e0.v2]` with `ULP_FLIP_0` swapping the two
`e0` corners and `ULP_FLIP_1` swapping the two `e1` corners.  Tri case:
`[v_shared, other0, other1]`, the first two swapped when the shared vertex is
`l0`'s own vertex (the flip flags are unused). -/
def fill_face_verts (ulp : ULP) : Option (List Nat) :=
  match ulp.l0, ulp.l1 with
  | some l0, some l1 =>
    if l0.e.eid == l1.e.eid then none
    else
      match BM_edge_share_vert l0.e l1.e with
      | none =>
        let a := l0.e.v1
        let b := l1.e.v1
        let c := l1.e.v2
        let d := l0.e.v2
        let p := if ulp.flag.testBit 0 then (d, a) else (a, d)
        let q := if ulp.flag.testBit 1 then (c, b) else (b, c)
        some [p.1, q.1, q.2, p.2]
      | some v_shared =>
        let t0 := v_shared
        let t1 := fedge_other_vert l0.e v_shared
        let t2 := fedge_other_vert l1.e v_shared
        some (if v_shared == l0.v then [t1, t0, t2] else [t0, t1, t2])
  | _, _ => none

/-- Translation of `edbm_tagged_loop_pairs_do_fill_faces`: for each captured
pair in order, append the assembled face (when any) to the mesh.  The
source's `BLI_assert(!BM_face_exists(f_verts, …))` is a debug assertion with
no release-build effect and no influence on the result. -/
def edbm_tagged_loop_pairs_do_fill_faces (m : FMesh) (ulps : List ULP) : FMesh :=
  ulps.foldl (fun acc ulp =>
    match fill_face_verts ulp with
    | some fv => { faces := acc.faces ++ [fv] }
    | none => acc) m

/-! ## Edge-rip skeleton

`edbm_rip_invoke__edge` captures the vertex and edge counts, mutates the mesh
(loop tagging, one-hop tag expansion on the mouse-facing side, optional fill
capture, the external `BM_mesh_edgesplit` bulk primitive, far-side
deselection, selection-mode cleaning, optional fill application), and finally
classifies the attempt by comparing the counts.  For the count/status claim
the whole mutation pipeline between the two count reads is abstracted as
`body`; the final check is the source's
`if ((totvert_orig == bm->totvert) && (totedge_orig == bm->totedge))`. -/

/-- Skeleton of `edbm_rip_invoke__edge` (editmesh_rip.cc:889-1013): record the
original counts, run the mutation pipeline `body`, return `cancelled` when
both counts are unchanged and `finished` otherwise, together with the final
mesh. -/
def edbm_rip_invoke__edge (body : RMesh → RMesh) (m : RMesh) : WmStatus × RMesh :=
  let totvert_orig := m.totvert
  let totedge_orig := m.edges.length
  let m2 := body m
  if m2.totvert = totvert_orig ∧ m2.edges.length = totedge_orig then
    (WmStatus.cancelled, m2)
  else
    (WmStatus.finished, m2)

/-! ## Operator entry: `edbm_rip_invoke`

The multi-object loop with its four error flags.  Each edited object is
summarised by its selection counters (`bm->totvertsel`, `bm->totedgesel`,
`bm->totfacesel`) plus a `tagged` marker recording whether the
selection-to-tag copy — the first mutation of the loop body — has been
applied; the per-object rip body (`edbm_rip_invoke__vert` or
`edbm_rip_invoke__edge`, chosen by `singlesel`) is a parameter. -/

/-- The fixed set of user-facing report messages of `edbm_rip_invoke`. -/
inductive RipMsg where
  | cannotRipFaces
  | cannotRipDisconnected
  | ripFailed
  deriving DecidableEq, Repr

/-- The exact `BKE_report` text of each message. -/
def RipMsg.text : RipMsg → String
  | .cannotRipFaces => "Cannot rip selected faces"
  | .cannotRipDisconnected => "Cannot rip multiple disconnected vertices"
  | .ripFailed => "Rip failed"

/-- One edited object as seen by the invoke loop. -/
structure RObj where
  totvertsel : Nat
  totedgesel : Nat
  totfacesel : Nat
  tagged : Bool
  deriving DecidableEq, Repr

/-- The four error flags of `edbm_rip_invoke`, all initialised `true`. -/
structure InvokeFlags where
  no_vertex_selected : Bool
  error_face_selected : Bool
  error_disconnected_vertices : Bool
  error_rip_failed : Bool
  deriving DecidableEq, Repr

/-- One iteration of the object loop of `edbm_rip_invoke`
(editmesh_rip.cc:1035-1108): the three suitability checks (each `continue`s
before any mutation), then the selection-to-tag copy, the vert/edge rip body,
and the post-body checks clearing `error_rip_failed`. -/
def rip_process_obj (inner : Bool → RObj → WmStatus × RObj)
    (fl : InvokeFlags) (o : RObj) : InvokeFlags × RObj :=
  if o.totvertsel = 0 then (fl, o)
  else
    let fl := { fl with no_vertex_selected := false }
    if o.totfacesel ≠ 0 then (fl, o)
    else
      let fl := { fl with error_face_selected := false }
      if 1 < o.totvertsel ∧ o.totedgesel = 0 then (fl, o)
      else
        let fl := { fl with error_disconnected_vertices := false }
        let singlesel := o.totvertsel = 1 ∧ o.totedgesel = 0 ∧ o.totfacesel = 0
        let o1 := { o with tagged := true }
        let r := inner singlesel o1
        if r.1 ≠ WmStatus.finished then (fl, r.2)
        else if r.2.totvertsel = 0 then (fl, r.2)
        else ({ fl with error_rip_failed := false }, r.2)

/-- The object loop of `edbm_rip_invoke`, threading the flags and collecting
each object's final state. -/
def rip_invoke_loop (inner : Bool → RObj → WmStatus × RObj)
    (fl : InvokeFlags) : List RObj → InvokeFlags × List RObj
  | [] => (fl, [])
  | o :: os =>
    let r := rip_process_obj inner fl o
    let rest := rip_invoke_loop inner r.1 os
    (rest.1, r.2 :: rest.2)

/-- Translation of `edbm_rip_invoke` (editmesh_rip.cc:1022-1128): run the
object loop with all flags `true`, then classify: silent cancel when no
vertex was selected anywhere, the three reported errors in order, otherwise
finished. -/
def edbm_rip_invoke (inner : Bool → RObj → WmStatus × RObj) (objs : List RObj) :
    WmStatus × Option RipMsg × List RObj :=
  let r := rip_invoke_loop inner ⟨true, true, true, true⟩ objs
  let fl := r.1
  if fl.no_vertex_selected then (WmStatus.cancelled, none, r.2)
  else if fl.error_face_selected then (WmStatus.cancelled, some RipMsg.cannotRipFaces, r.2)
  else if fl.error_disconnected_vertices then
    (WmStatus.cancelled, some RipMsg.cannotRipDisconnected, r.2)
  else if fl.error_rip_failed then (WmStatus.cancelled, some RipMsg.ripFailed, r.2)
  else (WmStatus.finished, none, r.2)

/-! ## Vertex rip (`edbm_rip_invoke__vert`)

The single-vertex rip path.  The mesh model carries the data this function
reads: the vertex list, per-vertex selection, the external BMesh topology
queries as per-element data (`BM_vert_is_wire`, `BM_vert_is_manifold_region`,
edge/loop incidence, per-edge boundary/wire/manifold/hidden state, the radial
loop count of an edge), the selection-history active vertex, and the face
count.  The three external mutating primitives are modelled from the spec:

* `BM_face_loop_separate_multi_isolated` and `BM_face_loop_separate_multi`
  (BMesh core, not among the translated sources): vertex separation peels the
  chosen loop fan off onto one newly created vertex and touches no face —
  the spec's "separation does not create/destroy faces";
* `bmesh_kernel_vert_separate` (BMesh kernel): splits vertex `v` into the
  vertex list `vert_separate_out v` carried by the mesh (one piece means
  nothing separated); `BM_vert_splice` merges a vertex away;
* `edbm_calc_loop_co` calls `BM_loop_calc_face_tangent` (BMesh core): its
  resulting measuring point is carried per loop as `loop_tangent`;
* the face-fill pre/post passes (exercised only with `use_fill`): whether the
  pre-pass captures any pair and how many faces the post-pass builds are
  carried as `fill_pairs` / `fill_faces`. -/

/-- A face corner (`BMLoop`) around a vertex: its identity, its edge `l->e`,
the previous corner's edge `l->prev->e`, and whether its face is hidden. -/
structure VLoop where
  lid : Nat
  e : Nat
  eprev : Nat
  fhidden : Bool
  deriving DecidableEq, Repr

/-- An edge around the rip vertex, with the external per-edge queries the
vertex-rip path consults. -/
structure VEdge where
  eid : Nat
  v1 : Nat
  v2 : Nat
  hidden : Bool
  boundary : Bool
  wire : Bool
  manifold : Bool
  nradial : Nat
  hasLoop : Bool
  deriving DecidableEq, Repr

/-- The mesh as consumed by `edbm_rip_invoke__vert`. -/
structure VMesh where
  verts : List Nat
  vsel : Nat → Bool
  vwire : Nat → Bool
  vmanifold_region : Nat → Bool
  vedges : Nat → List VEdge
  vloops : Nat → List VLoop
  active : Option Nat
  totface : Nat
  fill_pairs : Bool
  fill_faces : Nat
  vert_separate_out : Nat → List Nat
  loop_tangent : Nat → Vec3

/-- A vertex id not yet used by the mesh (identity of a newly created
vertex). -/
def freshVert (m : VMesh) : Nat :=
  m.verts.foldl max 0 + 1

/-- `INSET_DEFAULT` of editmesh_rip.cc. -/
noncomputable def INSET_DEFAULT : ℝ := 1 / 100000

/-- Linear interpolation `interp_v2_v2v2 (a, b, t)` of `BLI_math_vector`
(external). -/
noncomputable def interp_v2_v2v2 (a b : Vec2) (t : ℝ) : Vec2 :=
  (a.1 + t * (b.1 - a.1), a.2 + t * (b.2 - a.2))

/-- Translation of `edbm_rip_edgedist_squared`: project both endpoints, inset
them toward each other by `inset / dist_2d` when the projected segment is not
degenerate (the source's `FLT_EPSILON` guard, modelled as `0 < dist_2d`), and
return the squared distance from the mouse to the resulting segment. -/
noncomputable def edbm_rip_edgedist_squared (view : View) (co1 co2 : Vec3) (inset : ℝ) : ℝ :=
  let vec1 := view.proj co1
  let vec2 := view.proj co2
  if inset ≠ 0 ∧ 0 < len_v2v2 vec1 vec2 then
    let dist := inset / len_v2v2 vec1 vec2
    let vec1i := interp_v2_v2v2 vec1 vec2 dist
    let vec2i := interp_v2_v2v2 vec2 vec1i dist
    dist_squared_to_line_segment_v2 view.fmval vec1i vec2i
  else
    dist_squared_to_line_segment_v2 view.fmval vec1 vec2

/-- The recurring argmin pattern
`if ((best == NULL) || (d < dist_sq)) { dist_sq = d; best = x; }` over a
candidate list, with candidate filter `cond` and measure `dOf`. -/
noncomputable def pick_min {α : Type} (cond : α → Bool) (dOf : α → ℝ) (init : Option α × ℝ)
    (xs : List α) : Option α × ℝ :=
  xs.foldl (fun acc x =>
    if cond x then
      match acc.1 with
      | none => (some x, dOf x)
      | some _ => if dOf x < acc.2 then (some x, dOf x) else acc
    else acc) init

/-- The closest-edge-to-mouse search of `edbm_rip_invoke__vert`
(editmesh_rip.cc:570-588): over the edges of `v`, skipping hidden edges and —
when the vertex region is not manifold — non-manifold edges. -/
noncomputable def vert_pick_best_edge (view : View) (m : VMesh) (v : Nat)
    (is_manifold_region : Bool) : Option VEdge × ℝ :=
  pick_min
    (fun e => !e.hidden && (!is_manifold_region || e.manifold))
    (fun e => edbm_rip_edgedist_squared view (view.co e.v1) (view.co e.v2) INSET_DEFAULT)
    (none, 0) (m.vedges v)

/-- The 3-faces/3-edges refinement (editmesh_rip.cc:616-646): measure each
face corner's tangent point instead, and on improvement replace the best edge
by the one edge of `v` not used by that corner. -/
noncomputable def vert_best_33 (view : View) (m : VMesh) (v : Nat)
    (init : Option VEdge × ℝ) : Option VEdge × ℝ :=
  (m.vloops v).foldl (fun acc l =>
    let d := edbm_rip_edgedist_squared view (view.co v) (m.loop_tangent l.lid) INSET_DEFAULT
    match acc.1 with
    | none => ((m.vedges v).find? (fun e => !(e.eid == l.e || e.eid == l.eprev)), d)
    | some _ =>
      if d < acc.2 then
        ((m.vedges v).find? (fun e => !(e.eid == l.e || e.eid == l.eprev)), d)
      else acc) init

/-- The candidate distances of one separated vertex `w` in the
vertex-separate branch (editmesh_rip.cc:681-718): face-corner tangent points
for non-wire vertices, edge midpoints for wire ones, hidden elements
skipped; every distance is measured from the original vertex position
`v->co`. -/
noncomputable def vout_vert_dists (view : View) (m : VMesh) (v w : Nat) : List ℝ :=
  if !m.vwire w then
    ((m.vloops w).filter (fun l => !l.fhidden)).map (fun l =>
      edbm_rip_edgedist_squared view (view.co v) (m.loop_tangent l.lid) INSET_DEFAULT)
  else
    ((m.vedges w).filter (fun e => !e.hidden)).map (fun e =>
      edbm_rip_edgedist_squared view (view.co v) (midpoint3 (view.co e.v1) (view.co e.v2))
        INSET_DEFAULT)

/-- Index of the best separated vertex (`vi_best`), the double loop of
editmesh_rip.cc:681-718 with its `FLT_MAX` initial distance (modelled as
"no distance seen yet"). -/
noncomputable def vout_pick_best (view : View) (m : VMesh) (v : Nat) (vout : List Nat) : Nat :=
  (vout.enum.foldl (fun (acc : Nat × Option ℝ) iw =>
    (vout_vert_dists view m v iw.2).foldl (fun acc2 d =>
      match acc2.2 with
      | none => (iw.1, some d)
      | some cur => if d < cur then (iw.1, some d) else acc2) acc) (0, none)).1

/-- The post-split "select which vert" pass (editmesh_rip.cc:834-866):
deselect every selected vertex, measure every face corner of each by its
tangent point, and re-select the single winner (updating the selection
history when it was in use). -/
noncomputable def select_best_vert (view : View) (m : VMesh) : VMesh :=
  let cands := m.verts.filter (fun x => m.vsel x)
  let pick := cands.foldl (fun (acc : Option Nat × ℝ) x =>
    (m.vloops x).foldl (fun acc2 l =>
      let d := edbm_rip_edgedist_squared view (view.co x) (m.loop_tangent l.lid) INSET_DEFAULT
      match acc2.1 with
      | none => (some x, d)
      | some _ => if d < acc2.2 then (some x, d) else acc2) acc) (none, 0)
  let m1 := { m with vsel := fun x => if cands.contains x then false else m.vsel x }
  match pick.1 with
  | some vb =>
    { m1 with
      vsel := fun x => if x == vb then true else if cands.contains x then false else m.vsel x
      active := match m.active with | some _ => some vb | none => none }
  | none => m1

/-- The non-manifold multi-fan branch (editmesh_rip.cc:590-612): peel the fan
containing the best edge onto a new vertex
(`BM_face_loop_separate_multi_isolated`, modelled from the spec: one new
vertex, faces untouched), move selection and history to it, and finish.
With `use_fill` the source additionally bridges `v` to the new vertex with a
new edge, which touches neither the vertex nor the face count. -/
def vert_rip_multifan (m : VMesh) (v : Nat) : WmStatus × VMesh :=
  let v_new := freshVert m
  (WmStatus.finished,
    { m with
      verts := m.verts ++ [v_new]
      vsel := fun x => if x == v_new then true else if x == v then false else m.vsel x
      active := match m.active with | some _ => some v_new | none => none })

/-- The full vertex-separation branch (editmesh_rip.cc:655-752): deselect `v`,
split it into `vert_separate_out v` pieces (`bmesh_kernel_vert_separate`,
modelled from the spec; fewer than two pieces restores the selection and
cancels), pick the piece closest to the mouse, swap it to slot 0, select it,
splice every piece beyond slot 1 back into the glue vertex (`BM_vert_splice`,
modelled from the spec: the spliced vertex disappears), and finish.  With
`use_fill` the source bridges glue to kept with a new edge (vertex and face
counts untouched). -/
noncomputable def vert_rip_separate (view : View) (m : VMesh) (v : Nat) : WmStatus × VMesh :=
  let vout := m.vert_separate_out v
  if vout.length < 2 then
    (WmStatus.cancelled, { m with vsel := fun x => if x == v then true else m.vsel x })
  else
    let m2 := { m with
      verts := (m.verts.erase v) ++ vout
      vsel := fun x => if x == v then false else m.vsel x }
    let vi_best := vout_pick_best view m v vout
    let a0 := vout.getD 0 0
    let ab := vout.getD vi_best 0
    let vout1 := if vi_best ≠ 0 then (vout.set 0 ab).set vi_best a0 else vout
    let v_keep := vout1.getD 0 0
    let m3 := { m2 with
      vsel := fun x => if x == v_keep then true else m2.vsel x
      active := match m.active with | some _ => some v_keep | none => none }
    let m4 := { m3 with
      verts := (vout1.drop 2).foldl (fun vs w => vs.erase w) m3.verts }
    (WmStatus.finished, m4)

/-- Tail of the main split path (editmesh_rip.cc:834-877): the
"select which vert" pass, the optional fill application (which only creates
faces), and the final no-effect check against the original vertex count. -/
noncomputable def vert_rip_finish (view : View) (m : VMesh) (do_fill : Bool)
    (totvert_orig : Nat) : WmStatus × VMesh :=
  let m6 := select_best_vert view m
  let m7 := if do_fill && m.fill_pairs then
      { m6 with totface := m6.totface + m6.fill_faces }
    else m6
  if m7.verts.length = totvert_orig then (WmStatus.cancelled, m7)
  else (WmStatus.finished, m7)

/-- The main split block (editmesh_rip.cc:758-877): determine the loops to
separate (one loop when the best edge is a boundary or the vertex has exactly
two faces; the radial loops of the best edge when it is manifold; none
otherwise), run `BM_face_loop_separate_multi` (modelled from the spec: a
nonempty loop array separates onto one newly created vertex, faces untouched),
select the ripped vertex, and run the finishing tail; an empty loop array
means no split vertex and cancels. -/
noncomputable def vert_rip_split (view : View) (m : VMesh) (v : Nat) (e_best : VEdge)
    (do_fill : Bool) (totvert_orig : Nat) : WmStatus × VMesh :=
  let larr_len :=
    if e_best.boundary || (m.vloops v).length == 2 then 1
    else if e_best.manifold then e_best.nradial
    else 0
  if larr_len ≠ 0 then
    let v_rip := freshVert m
    let m5 := { m with
      verts := m.verts ++ [v_rip]
      vsel := fun x => if x == v_rip then true else m.vsel x }
    vert_rip_finish view m5 do_fill totvert_orig
  else
    (WmStatus.cancelled, m)

/-- Translation of `edbm_rip_invoke__vert` (editmesh_rip.cc:523-878).  Returns
the operator status and the final mesh. -/
noncomputable def edbm_rip_invoke__vert (view : View) (m : VMesh) (do_fill : Bool) :
    WmStatus × VMesh :=
  let totvert_orig := m.verts.length
  let vOpt := match m.active with
    | some v => some v
    | none => m.verts.find? (fun x => m.vsel x)
  match vOpt with
  | none => (WmStatus.cancelled, m)
  | some v =>
    if (m.vedges v).isEmpty then (WmStatus.cancelled, m)
    else
      let is_wire := m.vwire v
      let is_manifold_region := m.vmanifold_region v
      let totboundary_edge := ((m.vedges v).filter (fun e => e.boundary || e.wire)).length
      let pick0 := vert_pick_best_edge view m v is_manifold_region
      if (match pick0.1 with | some e => e.hasLoop | none => false) && !is_manifold_region then
        vert_rip_multifan m v
      else
        let pick1 :=
          if (m.vloops v).length == 3 && (m.vedges v).length == 3 then
            vert_best_33 view m v pick0
          else pick0
        if (!is_wire && 2 < totboundary_edge) || (is_wire && 1 < totboundary_edge) then
          vert_rip_separate view m v
        else
          match pick1.1 with
          | none => (WmStatus.cancelled, m)
          | some e_best => vert_rip_split view m v e_best do_fill totvert_orig

/-! ## Specification-level notions used by the theorems -/

/-- Number of mesh edges already visited (loop index slot set) in uid state
`st`. -/
def visitedCount (m : RMesh) (st : UidMap) : Nat :=
  (m.edges.filter (fun e => IS_VISIT_DONE st e)).length

/-- Invariant of the island loop: processed with `budget` unvisited edges
available and uid counter `u`, each island consumes `fwd + bwd ≥ 1` of the
budget, its recorded `uid_start`/`uid_end` delimit its walks
(`uid_end = u + fwd - 1`, `uid_start = u - bwd - 1`), every uid it stamped
lies in `[uid_start + 1, uid_end]`, and the rest of the islands satisfy the
invariant with the counter strided to `uid_end + totedge`. -/
def chainOK (m : RMesh) : Nat → Int → List Island → Prop
  | _, _, [] => True
  | budget, u, isl :: rest =>
    ∃ fwd bwd : Nat,
      1 ≤ fwd ∧ fwd + bwd ≤ budget ∧
      isl.uid_end = u + fwd - 1 ∧ isl.uid_start = u - bwd - 1 ∧
      (∀ p ∈ isl.asg, isl.uid_start + 1 ≤ p.2 ∧ p.2 ≤ isl.uid_end) ∧
      chainOK m (budget - (fwd + bwd)) (isl.uid_end + m.edges.length) rest

/-! ## The single-run path family

The Loop Tagger claims quantify over one maximal run of tagged 2-manifold
edges (a "rip island").  `pathMesh k n` realises such a run: `n` edges in a
line along vertices `0 … n`, all tagged, 2-manifold, and selected; the mesh
edge list is enumerated starting at edge `k` (`0 ≤ k < n`), so the tagger
seeds in the middle of the run and exercises both the ascending and the
descending numbering walk.  After `BM_mesh_edgesplit` each of the two sides
of the rip is a copy of this run whose boundary loops keep the stamped
sequence ids, so the post-split walk of one side is modelled by walking the
run itself under the tagger's final uid state. -/

/-- The i-th edge of the run: endpoints `i` and `i + 1`. -/
def pathEdge (i : Nat) : REdge :=
  { eid := i, v1 := i, v2 := i + 1, tag := true, manifold := true, sel := true,
    lf := some [i, i + 1] }

/-- The run of `n` path edges, listed from edge `k` around: `e_k, …, e_(n-1),
e_0, …, e_(k-1)`. -/
def pathMesh (k n : Nat) : RMesh :=
  { edges := (List.range' k (n - k) ++ List.range k).map pathEdge, totvert := n + 1 }

/-! ## Concrete instances used by witnesses and counterexamples -/

/-- A trivial view: every vertex sits at the origin and projects to the
origin, the mouse is at the origin. -/
noncomputable def zeroView : View :=
  { co := fun _ => (0, 0, 0), proj := fun _ => (0, 0), fmval := (0, 0) }

/-- Witness mesh for the vertex-rip no-effect case: a single selected, active
vertex with no edges at all (`v->e == NULL`), on which the attempt cancels
without touching anything. -/
noncomputable def wNoEdgeMesh : VMesh :=
  { verts := [0]
    vsel := fun _ => true
    vwire := fun _ => false
    vmanifold_region := fun _ => true
    vedges := fun _ => []
    vloops := fun _ => []
    active := some 0
    totface := 1
    fill_pairs := false
    fill_faces := 0
    vert_separate_out := fun _ => []
    loop_tangent := fun _ => (0, 0, 0) }

/-- Witness mesh for the edge-rip no-effect case: no edges, no vertices. -/
def wEmptyRMesh : RMesh :=
  { edges := [], totvert := 0 }

/-- Concrete view for the side-measure analysis: vertex `0` at the origin,
vertex `1` at `(2,0,0)`, vertex `2` (the face apex) at `(1,3,0)`; the
projection drops the `z` coordinate; the mouse sits at `(1,1)`, above the
projected edge and below the apex. -/
noncomputable def cView : View :=
  { co := fun i => if i = 0 then (0, 0, 0) else if i = 1 then (2, 0, 0) else (1, 3, 0)
    proj := fun c => (c.1, c.2.1)
    fmval := (1, 1) }

/-- The measured edge `0 – 1`, whose loop's face is the triangle `0 1 2`. -/
def cEdgeC9 : REdge :=
  { eid := 0, v1 := 0, v2 := 1, tag := true, manifold := true, sel := true,
    lf := some [0, 1, 2] }

/-- View for the side-selection analysis: two geometrically coincident
projected boundary edges (vertices `0/1` and `3/4` both project to the
segment `(0,0)–(2,0)`), the side-a loop-face apex `2` below the edge, the
side-b apex `5` above it; the mouse sits at `(1,1)`. -/
noncomputable def c1View : View :=
  { co := fun i =>
      if i = 0 then (0, 0, 0) else if i = 1 then (2, 0, 0)
      else if i = 2 then (1, -3, 0) else if i = 3 then (0, 0, 0)
      else if i = 4 then (2, 0, 0) else (1, 3, 0)
    proj := fun c => (c.1, c.2.1)
    fmval := (1, 1) }

/-- Side-a edge of the pair: apex below the edge, mouse above it. -/
def eA1 : REdge :=
  { eid := 0, v1 := 0, v2 := 1, tag := true, manifold := true, sel := true,
    lf := some [0, 1, 2] }

/-- Side-b edge of the pair: apex above the edge, on the mouse's side. -/
def eB1 : REdge :=
  { eid := 1, v1 := 3, v2 := 4, tag := true, manifold := true, sel := true,
    lf := some [3, 4, 5] }

/-- The two-sided post-split mesh: each side is a one-edge boundary. -/
def c1Mesh : RMesh := { edges := [eA1, eB1], totvert := 6 }

/-- Loop ids making each side a one-edge walk (no id-minus-one continuation). -/
def c1St : UidMap := [(0, 10), (1, 20)]

/-- An interior edge of the C4 witness fan: not hidden, not a boundary, not
wire, 2-manifold with two radial loops. -/
def wC4Edge (i : Nat) : VEdge :=
  { eid := i, v1 := 0, v2 := i, hidden := false, boundary := false, wire := false,
    manifold := true, nradial := 2, hasLoop := true }

/-- C4 witness mesh: a single selected interior vertex `0` carrying a fan of
four faces over four interior edges. -/
noncomputable def wC4Mesh : VMesh :=
  { verts := [0]
    vsel := fun x => x == 0
    vwire := fun _ => false
    vmanifold_region := fun _ => true
    vedges := fun _ => [wC4Edge 1, wC4Edge 2, wC4Edge 3, wC4Edge 4]
    vloops := fun _ => [⟨1, 1, 2, false⟩, ⟨2, 2, 3, false⟩, ⟨3, 3, 4, false⟩, ⟨4, 4, 1, false⟩]
    active := some 0
    totface := 4
    fill_pairs := false
    fill_faces := 0
    vert_separate_out := fun _ => []
    loop_tangent := fun _ => (0, 0, 0) }

/-! ## Supporting lemmas -/

theorem length_erase_ge (l : List Nat) (a : Nat) : l.length - 1 ≤ (l.erase a).length := by
  by_cases h : a ∈ l
  · rw [List.length_erase_of_mem h]
  · rw [List.erase_of_not_mem h]
    omega

theorem length_foldl_erase_ge (zs : List Nat) (l : List Nat) :
    l.length - zs.length ≤ (zs.foldl (fun vs w => vs.erase w) l).length := by
  induction zs generalizing l with
  | nil => simp
  | cons z zs ih =>
    have h1 := length_erase_ge l z
    have h2 := ih (l.erase z)
    simp only [List.foldl_cons, List.length_cons]
    omega

theorem select_best_vert_verts (view : View) (m : VMesh) :
    (select_best_vert view m).verts = m.verts := by
  unfold select_best_vert
  cases h : (m.verts.filter (fun x => m.vsel x)).foldl (fun (acc : Option Nat × ℝ) x =>
    (m.vloops x).foldl (fun acc2 l =>
      let d := edbm_rip_edgedist_squared view (view.co x) (m.loop_tangent l.lid) INSET_DEFAULT
      match acc2.1 with
      | none => (some x, d)
      | some _ => if d < acc2.2 then (some x, d) else acc2) acc) (none, 0) with
  | mk b s => cases b <;> simp [h]

theorem vert_rip_multifan_spec (m : VMesh) (v : Nat) :
    (vert_rip_multifan m v).1 = WmStatus.finished ∧
    (vert_rip_multifan m v).2.verts.length = m.verts.length + 1 := by
  simp [vert_rip_multifan]

theorem vert_rip_separate_cases (view : View) (m : VMesh) (v : Nat) :
    (vert_rip_separate view m v).1 = WmStatus.cancelled ∨
    (m.verts.length < (vert_rip_separate view m v).2.verts.length ∧
     (vert_rip_separate view m v).1 = WmStatus.finished) := by
  simp only [vert_rip_separate]
  split
  · exact Or.inl rfl
  · rename_i hlen
    right
    refine ⟨?_, rfl⟩
    simp only []
    refine lt_of_lt_of_le (Nat.lt_succ_self _) (le_trans ?_ (length_foldl_erase_ge _ _))
    simp only [List.length_append, List.length_drop, List.length_set]
    have h1 := length_erase_ge m.verts v
    have h2 : (if vout_pick_best view m v (m.vert_separate_out v) ≠ 0 then
        (((m.vert_separate_out v).set 0 ((m.vert_separate_out v).getD
            (vout_pick_best view m v (m.vert_separate_out v)) 0)).set
          (vout_pick_best view m v (m.vert_separate_out v)) ((m.vert_separate_out v).getD 0 0))
      else (m.vert_separate_out v)).length = (m.vert_separate_out v).length := by
      split <;> simp
    rw [h2]
    omega

theorem vert_rip_finish_verts (view : View) (m : VMesh) (df : Bool) (o : Nat) :
    (vert_rip_finish view m df o).2.verts = m.verts := by
  simp only [vert_rip_finish]
  by_cases h : (df && m.fill_pairs) = true <;>
    simp only [h, if_true, if_false, Bool.false_eq_true] <;>
    split <;> simp [select_best_vert_verts]

theorem vert_rip_finish_status (view : View) (m : VMesh) (df : Bool) (o : Nat)
    (h : m.verts.length ≠ o) : (vert_rip_finish view m df o).1 = WmStatus.finished := by
  simp only [vert_rip_finish]
  by_cases hf : (df && m.fill_pairs) = true <;>
    simp [hf, select_best_vert_verts, h]

theorem vert_rip_split_good (view : View) (m : VMesh) (df : Bool) :
    m.verts.length < (vert_rip_finish view
      { m with
        verts := m.verts ++ [freshVert m]
        vsel := fun x => if x == freshVert m then true else m.vsel x } df
      m.verts.length).2.verts.length ∧
    (vert_rip_finish view
      { m with
        verts := m.verts ++ [freshVert m]
        vsel := fun x => if x == freshVert m then true else m.vsel x } df
      m.verts.length).1 = WmStatus.finished := by
  constructor
  · rw [vert_rip_finish_verts]
    simp
  · apply vert_rip_finish_status
    simp

theorem vert_rip_split_cases (view : View) (m : VMesh) (v : Nat) (e_best : VEdge) (df : Bool) :
    (vert_rip_split view m v e_best df m.verts.length).1 = WmStatus.cancelled ∨
    (m.verts.length < (vert_rip_split view m v e_best df m.verts.length).2.verts.length ∧
     (vert_rip_split view m v e_best df m.verts.length).1 = WmStatus.finished) := by
  simp only [vert_rip_split]
  split
  · rw [if_pos (by norm_num : (1 : Nat) ≠ 0)]
    exact Or.inr (vert_rip_split_good view m df)
  · split
    · split
      · exact Or.inr (vert_rip_split_good view m df)
      · exact Or.inl rfl
    · rw [if_neg (by norm_num : ¬(0 : Nat) ≠ 0)]
      exact Or.inl rfl

/-- Case split on the outcome of the vertex-rip path: every branch either
cancels or has strictly increased the vertex count. -/
theorem vert_rip_cases (view : View) (m : VMesh) (do_fill : Bool) :
    (edbm_rip_invoke__vert view m do_fill).1 = WmStatus.cancelled ∨
    (m.verts.length < (edbm_rip_invoke__vert view m do_fill).2.verts.length ∧
     (edbm_rip_invoke__vert view m do_fill).1 = WmStatus.finished) := by
  simp only [edbm_rip_invoke__vert]
  split
  · exact Or.inl rfl
  · rename_i v hv
    split
    · exact Or.inl rfl
    · split
      · right
        have h := vert_rip_multifan_spec m v
        exact ⟨by omega, h.1⟩
      · split
        · exact vert_rip_separate_cases view m v
        · split
          · exact Or.inl rfl
          · exact vert_rip_split_cases view m v _ do_fill

/-- C6: a rip attempt that runs without changing the element counts is
classified as cancelled (not finished): the vertex-rip path returns
`OPERATOR_CANCELLED` whenever the final vertex count equals its pre-operation
value, and the edge-rip path returns `OPERATOR_CANCELLED` whenever both the
vertex count and the edge count equal their pre-operation values. -/
theorem rip_no_effect_is_cancelled :
    (∀ (view : View) (m : VMesh) (do_fill : Bool),
      (edbm_rip_invoke__vert view m do_fill).2.verts.length = m.verts.length →
      (edbm_rip_invoke__vert view m do_fill).1 = WmStatus.cancelled) ∧
    (∀ (body : RMesh → RMesh) (m : RMesh),
      (edbm_rip_invoke__edge body m).2.totvert = m.totvert →
      (edbm_rip_invoke__edge body m).2.edges.length = m.edges.length →
      (edbm_rip_invoke__edge body m).1 = WmStatus.cancelled) := by
  constructor
  · intro view m df h
    rcases vert_rip_cases view m df with hc | ⟨hlt, _⟩
    · exact hc
    · omega
  · intro body m h1 h2
    have hbody : (edbm_rip_invoke__edge body m).2 = body m := by
      simp only [edbm_rip_invoke__edge]
      split <;> rfl
    rw [hbody] at h1 h2
    simp only [edbm_rip_invoke__edge]
    rw [if_pos ⟨h1, h2⟩]

/-- C6 witness: concrete no-effect runs of both paths, with the hypotheses of
`rip_no_effect_is_cancelled` discharged by evaluation. -/
theorem rip_no_effect_is_cancelled_witness :
    ((edbm_rip_invoke__vert zeroView wNoEdgeMesh false).2.verts.length =
        wNoEdgeMesh.verts.length ∧
      (edbm_rip_invoke__vert zeroView wNoEdgeMesh false).1 = WmStatus.cancelled) ∧
    ((edbm_rip_invoke__edge id wEmptyRMesh).2.totvert = wEmptyRMesh.totvert ∧
      (edbm_rip_invoke__edge id wEmptyRMesh).2.edges.length = wEmptyRMesh.edges.length ∧
      (edbm_rip_invoke__edge id wEmptyRMesh).1 = WmStatus.cancelled) := by
  have hv : (edbm_rip_invoke__vert zeroView wNoEdgeMesh false).2.verts.length =
      wNoEdgeMesh.verts.length := by
    simp [edbm_rip_invoke__vert, wNoEdgeMesh]
  have h1 : (edbm_rip_invoke__edge id wEmptyRMesh).2.totvert = wEmptyRMesh.totvert := rfl
  have h2 : (edbm_rip_invoke__edge id wEmptyRMesh).2.edges.length =
      wEmptyRMesh.edges.length := rfl
  exact ⟨⟨hv, rip_no_effect_is_cancelled.1 zeroView wNoEdgeMesh false hv⟩,
    ⟨h1, h2, rip_no_effect_is_cancelled.2 id wEmptyRMesh h1 h2⟩⟩

/-- Behaviour of the invoke loop on a list of objects that all fail one of
the three suitability checks: nothing is mutated, the first two error flags
record whether some object got past the corresponding check, and the last
two flags are untouched. -/
theorem rip_invoke_loop_unsuitable (inner : Bool → RObj → WmStatus × RObj)
    (fl : InvokeFlags) (objs : List RObj)
    (h : ∀ o ∈ objs,
      o.totvertsel = 0 ∨ o.totfacesel ≠ 0 ∨ (1 < o.totvertsel ∧ o.totedgesel = 0)) :
    rip_invoke_loop inner fl objs =
      ({ fl with
          no_vertex_selected :=
            fl.no_vertex_selected && objs.all (fun o => o.totvertsel == 0)
          error_face_selected :=
            fl.error_face_selected &&
              objs.all (fun o => o.totvertsel == 0 || o.totfacesel != 0) }, objs) := by
  induction objs generalizing fl with
  | nil => simp [rip_invoke_loop]
  | cons o os ih =>
    have hos : ∀ x ∈ os,
        x.totvertsel = 0 ∨ x.totfacesel ≠ 0 ∨ (1 < x.totvertsel ∧ x.totedgesel = 0) :=
      fun x hx => h x (List.mem_cons_of_mem o hx)
    rcases h o (List.mem_cons_self o os) with h0 | h0 | h0
    · simp [rip_invoke_loop, rip_process_obj, h0, ih _ hos]
    · have hv0 : ¬o.totvertsel = 0 ∨ o.totvertsel = 0 := em' _
      rcases Nat.eq_zero_or_pos o.totvertsel with hz | hz
      · simp [rip_invoke_loop, rip_process_obj, hz, ih _ hos]
      · have hzz : ¬o.totvertsel = 0 := by omega
        have hb : (o.totfacesel != 0) = true := by simpa using h0
        simp [rip_invoke_loop, rip_process_obj, hzz, h0, hb, ih _ hos, Bool.and_assoc]
    · rcases Nat.eq_zero_or_pos o.totvertsel with hz | hz
      · simp [rip_invoke_loop, rip_process_obj, hz, ih _ hos]
      · have hzz : ¬o.totvertsel = 0 := by omega
        rcases Nat.eq_zero_or_pos o.totfacesel with hf | hf
        · simp [rip_invoke_loop, rip_process_obj, hzz, hf, h0, ih _ hos, Bool.and_assoc]
        · have hff : o.totfacesel ≠ 0 := by omega
          have hb : (o.totfacesel != 0) = true := by simpa using hff
          simp [rip_invoke_loop, rip_process_obj, hzz, hff, hb, ih _ hos, Bool.and_assoc]

/-- C5 counterexample: invoked on a single object with nothing selected, the
operator cancels without mutating anything but reports no message at all —
the claim's "a specific user-facing message from the fixed set is reported
for that condition" fails for the no-vertex-selected condition. -/
theorem rip_invoke_no_vertex_is_silent :
    edbm_rip_invoke (fun _ o => (WmStatus.cancelled, o))
        [{ totvertsel := 0, totedgesel := 0, totfacesel := 0, tagged := false }] =
      (WmStatus.cancelled, none,
        [{ totvertsel := 0, totedgesel := 0, totfacesel := 0, tagged := false }]) := by
  rfl

/-- C5 (amended): every unsuitable invocation is detected before any
mutation and cancels; the face-selected condition reports
"Cannot rip selected faces" and the disconnected-vertices condition reports
"Cannot rip multiple disconnected vertices", while the no-vertex-selected
condition cancels silently (no message). -/
theorem rip_invoke_unsuitable_spec (inner : Bool → RObj → WmStatus × RObj)
    (objs : List RObj) :
    ((∀ o ∈ objs, o.totvertsel = 0) →
      edbm_rip_invoke inner objs = (WmStatus.cancelled, none, objs)) ∧
    ((∀ o ∈ objs, o.totvertsel = 0 ∨ o.totfacesel ≠ 0) →
      (∃ o ∈ objs, o.totvertsel ≠ 0) →
      edbm_rip_invoke inner objs =
        (WmStatus.cancelled, some RipMsg.cannotRipFaces, objs)) ∧
    ((∀ o ∈ objs,
        o.totvertsel = 0 ∨ o.totfacesel ≠ 0 ∨ (1 < o.totvertsel ∧ o.totedgesel = 0)) →
      (∃ o ∈ objs, o.totvertsel ≠ 0 ∧ o.totfacesel = 0) →
      edbm_rip_invoke inner objs =
        (WmStatus.cancelled, some RipMsg.cannotRipDisconnected, objs)) := by
  refine ⟨?_, ?_, ?_⟩
  · intro h
    have hall : ∀ o ∈ objs,
        o.totvertsel = 0 ∨ o.totfacesel ≠ 0 ∨ (1 < o.totvertsel ∧ o.totedgesel = 0) :=
      fun o ho => Or.inl (h o ho)
    have hb : objs.all (fun o => o.totvertsel == 0) = true := by
      rw [List.all_eq_true]
      intro o ho
      simpa using h o ho
    simp [edbm_rip_invoke, rip_invoke_loop_unsuitable inner _ objs hall, hb]
  · intro h hex
    have hall : ∀ o ∈ objs,
        o.totvertsel = 0 ∨ o.totfacesel ≠ 0 ∨ (1 < o.totvertsel ∧ o.totedgesel = 0) :=
      fun o ho => (h o ho).elim Or.inl (fun hf => Or.inr (Or.inl hf))
    have hnv : objs.all (fun o => o.totvertsel == 0) = false := by
      rcases hex with ⟨o, ho, hne⟩
      rw [List.all_eq_false]
      exact ⟨o, ho, by simpa using hne⟩
    have hfc : objs.all (fun o => o.totvertsel == 0 || o.totfacesel != 0) = true := by
      rw [List.all_eq_true]
      intro o ho
      rcases h o ho with h1 | h1 <;> simp [h1]
    simp [edbm_rip_invoke, rip_invoke_loop_unsuitable inner _ objs hall, hnv, hfc]
  · intro h hex
    have hnv : objs.all (fun o => o.totvertsel == 0) = false := by
      rcases hex with ⟨o, ho, hne, _⟩
      rw [List.all_eq_false]
      exact ⟨o, ho, by simpa using hne⟩
    have hfc : objs.all (fun o => o.totvertsel == 0 || o.totfacesel != 0) = false := by
      rcases hex with ⟨o, ho, hne, hfz⟩
      rw [List.all_eq_false]
      exact ⟨o, ho, by simp [hfz]; simpa using hne⟩
    simp [edbm_rip_invoke, rip_invoke_loop_unsuitable inner _ objs h, hnv, hfc]

/-- C5 witness: the amended theorem applied to three concrete single-object
invocations, one per unsuitable class. -/
theorem rip_invoke_unsuitable_spec_witness :
    (edbm_rip_invoke (fun _ o => (WmStatus.cancelled, o))
        [{ totvertsel := 0, totedgesel := 0, totfacesel := 0, tagged := false }] =
      (WmStatus.cancelled, none,
        [{ totvertsel := 0, totedgesel := 0, totfacesel := 0, tagged := false }])) ∧
    (edbm_rip_invoke (fun _ o => (WmStatus.cancelled, o))
        [{ totvertsel := 4, totedgesel := 4, totfacesel := 1, tagged := false }] =
      (WmStatus.cancelled, some RipMsg.cannotRipFaces,
        [{ totvertsel := 4, totedgesel := 4, totfacesel := 1, tagged := false }])) ∧
    (edbm_rip_invoke (fun _ o => (WmStatus.cancelled, o))
        [{ totvertsel := 2, totedgesel := 0, totfacesel := 0, tagged := false }] =
      (WmStatus.cancelled, some RipMsg.cannotRipDisconnected,
        [{ totvertsel := 2, totedgesel := 0, totfacesel := 0, tagged := false }])) := by
  refine ⟨?_, ?_, ?_⟩
  · exact (rip_invoke_unsuitable_spec (fun _ o => (WmStatus.cancelled, o)) _).1
      (by decide)
  · exact (rip_invoke_unsuitable_spec (fun _ o => (WmStatus.cancelled, o)) _).2.1
      (by decide) (by decide)
  · exact (rip_invoke_unsuitable_spec (fun _ o => (WmStatus.cancelled, o)) _).2.2
      (by decide) (by decide)

/-- The fill pass appends exactly the faces assembled from the captured
pairs, in order. -/
theorem fill_faces_eq_append (m : FMesh) (ulps : List ULP) :
    (edbm_tagged_loop_pairs_do_fill_faces m ulps).faces =
      m.faces ++ ulps.filterMap fill_face_verts := by
  induction ulps generalizing m with
  | nil => simp [edbm_tagged_loop_pairs_do_fill_faces]
  | cons u us ih =>
    cases h : fill_face_verts u with
    | none =>
      simp [edbm_tagged_loop_pairs_do_fill_faces, h, List.filterMap_cons]
      simpa [edbm_tagged_loop_pairs_do_fill_faces] using ih m
    | some fv =>
      simp only [edbm_tagged_loop_pairs_do_fill_faces, List.foldl_cons, h,
        List.filterMap_cons]
      have := ih { faces := m.faces ++ [fv] }
      simpa [edbm_tagged_loop_pairs_do_fill_faces] using this

/-- C7: for each captured `UnorderedLoopPair` with both loops present, the
fill pass appends exactly one face when the loops sit on distinct edges — a
triangle (in the code's winding, flip flags unused) exactly when the two
edges share a vertex, a quadrilateral wound by the `ULP_FLIP_0`/`ULP_FLIP_1`
flags exactly when they share none — and makes no change at all when both
loops collapsed onto the same edge (or a loop is missing). -/
theorem fill_pair_spec (m : FMesh) (ulp : ULP) :
    (∀ l0 l1, ulp.l0 = some l0 → ulp.l1 = some l1 → l0.e.eid ≠ l1.e.eid →
      ((∀ vs, BM_edge_share_vert l0.e l1.e = some vs →
          edbm_tagged_loop_pairs_do_fill_faces m [ulp] =
            { faces := m.faces ++
                [if vs == l0.v then
                    [fedge_other_vert l0.e vs, vs, fedge_other_vert l1.e vs]
                  else [vs, fedge_other_vert l0.e vs, fedge_other_vert l1.e vs]] } ∧
          ∀ fv, fill_face_verts ulp = some fv → fv.length = 3) ∧
        (BM_edge_share_vert l0.e l1.e = none →
          edbm_tagged_loop_pairs_do_fill_faces m [ulp] =
            { faces := m.faces ++
                [[(if ulp.flag.testBit 0 then l0.e.v2 else l0.e.v1),
                  (if ulp.flag.testBit 1 then l1.e.v2 else l1.e.v1),
                  (if ulp.flag.testBit 1 then l1.e.v1 else l1.e.v2),
                  (if ulp.flag.testBit 0 then l0.e.v1 else l0.e.v2)]] } ∧
          ∀ fv, fill_face_verts ulp = some fv → fv.length = 4))) ∧
    (∀ l0 l1, ulp.l0 = some l0 → ulp.l1 = some l1 → l0.e.eid = l1.e.eid →
      edbm_tagged_loop_pairs_do_fill_faces m [ulp] = m) ∧
    (ulp.l0 = none ∨ ulp.l1 = none →
      edbm_tagged_loop_pairs_do_fill_faces m [ulp] = m) := by
  refine ⟨?_, ?_, ?_⟩
  · intro l0 l1 h0 h1 hne
    constructor
    · intro vs hvs
      have hfv : fill_face_verts ulp =
          some (if vs == l0.v then
              [fedge_other_vert l0.e vs, vs, fedge_other_vert l1.e vs]
            else [vs, fedge_other_vert l0.e vs, fedge_other_vert l1.e vs]) := by
        simp only [fill_face_verts, h0, h1, hvs]
        rw [if_neg (by simpa using hne)]
      constructor
      · simp [edbm_tagged_loop_pairs_do_fill_faces, hfv]
      · intro fv h
        rw [hfv] at h
        cases h
        split <;> rfl
    · intro hvs
      have hfv : fill_face_verts ulp =
          some [(if ulp.flag.testBit 0 then l0.e.v2 else l0.e.v1),
                (if ulp.flag.testBit 1 then l1.e.v2 else l1.e.v1),
                (if ulp.flag.testBit 1 then l1.e.v1 else l1.e.v2),
                (if ulp.flag.testBit 0 then l0.e.v1 else l0.e.v2)] := by
        simp only [fill_face_verts, h0, h1, hvs]
        rw [if_neg (by simpa using hne)]
        rcases Bool.dichotomy (ulp.flag.testBit 0) with hb0 | hb0 <;>
          rcases Bool.dichotomy (ulp.flag.testBit 1) with hb1 | hb1 <;>
          simp [hb0, hb1]
      constructor
      · simp [edbm_tagged_loop_pairs_do_fill_faces, hfv]
      · intro fv h
        rw [hfv] at h
        cases h
        rfl
  · intro l0 l1 h0 h1 heq
    have hfv : fill_face_verts ulp = none := by
      simp [fill_face_verts, h0, h1, heq]
    simp [edbm_tagged_loop_pairs_do_fill_faces, hfv]
  · intro h
    have hfv : fill_face_verts ulp = none := by
      rcases h with h | h <;> simp [fill_face_verts, h]
    simp [edbm_tagged_loop_pairs_do_fill_faces, hfv]

/-- C7 witness: the theorem applied to a concrete pair in each of the three
situations (shared vertex, disjoint edges, collapsed pair). -/
theorem fill_pair_spec_witness :
    (edbm_tagged_loop_pairs_do_fill_faces ⟨[]⟩
        [⟨some ⟨0, ⟨0, 0, 1⟩⟩, some ⟨1, ⟨1, 1, 2⟩⟩, 0⟩] = ⟨[[1, 0, 2]]⟩) ∧
    (edbm_tagged_loop_pairs_do_fill_faces ⟨[]⟩
        [⟨some ⟨0, ⟨0, 0, 1⟩⟩, some ⟨2, ⟨1, 2, 3⟩⟩, 0⟩] = ⟨[[0, 2, 3, 1]]⟩) ∧
    (edbm_tagged_loop_pairs_do_fill_faces ⟨[]⟩
        [⟨some ⟨0, ⟨0, 0, 1⟩⟩, some ⟨1, ⟨0, 0, 1⟩⟩, 0⟩] = ⟨[]⟩) := by
  refine ⟨?_, ?_, ?_⟩
  · have h := ((fill_pair_spec ⟨[]⟩ ⟨some ⟨0, ⟨0, 0, 1⟩⟩, some ⟨1, ⟨1, 1, 2⟩⟩, 0⟩).1
      ⟨0, ⟨0, 0, 1⟩⟩ ⟨1, ⟨1, 1, 2⟩⟩ rfl rfl (by decide)).1 1 (by decide)
    simpa using h.1
  · have h := ((fill_pair_spec ⟨[]⟩ ⟨some ⟨0, ⟨0, 0, 1⟩⟩, some ⟨2, ⟨1, 2, 3⟩⟩, 0⟩).1
      ⟨0, ⟨0, 0, 1⟩⟩ ⟨2, ⟨1, 2, 3⟩⟩ rfl rfl (by decide)).2 (by decide)
    simpa using h.1
  · exact (fill_pair_spec ⟨[]⟩ _).2.1 ⟨0, ⟨0, 0, 1⟩⟩ ⟨1, ⟨0, 0, 1⟩⟩ rfl rfl rfl

/-- C8 counterexample: the fill pass performs no runtime face-existence
check — run on a mesh that already contains the face about to be assembled,
it appends it again, so an execution of the fill pass can add a duplicate of
an existing face. -/
theorem fill_pass_creates_duplicate :
    (edbm_tagged_loop_pairs_do_fill_faces ⟨[[0, 2, 3, 1]]⟩
        [⟨some ⟨0, ⟨0, 0, 1⟩⟩, some ⟨2, ⟨1, 2, 3⟩⟩, 0⟩]).faces =
      [[0, 2, 3, 1], [0, 2, 3, 1]] ∧
    ¬ (edbm_tagged_loop_pairs_do_fill_faces ⟨[[0, 2, 3, 1]]⟩
        [⟨some ⟨0, ⟨0, 0, 1⟩⟩, some ⟨2, ⟨1, 2, 3⟩⟩, 0⟩]).faces.Nodup := by
  decide

/-- C8 (amended): the source only asserts (debug builds) that the assembled
face does not already exist and creates it unconditionally; whenever the
faces the pass assembles are fresh — none already present in the mesh and no
two alike — the pass adds no duplicate face. -/
theorem fill_pass_no_duplicate_of_fresh (m : FMesh) (ulps : List ULP)
    (hnd : m.faces.Nodup)
    (hcre : (ulps.filterMap fill_face_verts).Nodup)
    (hfresh : ∀ fv ∈ ulps.filterMap fill_face_verts, fv ∉ m.faces) :
    (edbm_tagged_loop_pairs_do_fill_faces m ulps).faces.Nodup := by
  rw [fill_faces_eq_append]
  rw [List.nodup_append]
  exact ⟨hnd, hcre, fun a ha hb => hfresh a hb ha⟩

/-- C8 witness: the amended theorem applied to a concrete fresh fill. -/
theorem fill_pass_no_duplicate_of_fresh_witness :
    (([[9, 9, 9]] : List (List Nat)).Nodup ∧
      ((([⟨some ⟨0, ⟨0, 0, 1⟩⟩, some ⟨2, ⟨1, 2, 3⟩⟩, 0⟩] : List ULP).filterMap
          fill_face_verts).Nodup) ∧
      (∀ fv ∈ ([⟨some ⟨0, ⟨0, 0, 1⟩⟩, some ⟨2, ⟨1, 2, 3⟩⟩, 0⟩] : List ULP).filterMap
          fill_face_verts, fv ∉ ([[9, 9, 9]] : List (List Nat)))) ∧
    (edbm_tagged_loop_pairs_do_fill_faces ⟨[[9, 9, 9]]⟩
        [⟨some ⟨0, ⟨0, 0, 1⟩⟩, some ⟨2, ⟨1, 2, 3⟩⟩, 0⟩]).faces.Nodup := by
  refine ⟨⟨by decide, by decide, by decide⟩, ?_⟩
  exact fill_pass_no_duplicate_of_fresh ⟨[[9, 9, 9]]⟩ _ (by decide) (by decide) (by decide)

/-! ## Loop-tagger invariants -/

theorem edge_mark_step_some (m : RMesh) (st : UidMap) (v : Nat) (u : Int)
    (e : REdge) (st1 : UidMap) (h : edge_mark_step m st v u = some (e, st1)) :
    e ∈ m.edges ∧ IS_VISIT_POSSIBLE e = true ∧ IS_VISIT_DONE st e = false ∧
      st1 = uidSet st e.eid u := by
  unfold edge_mark_step at h
  cases hf : (edgesOfVert m v).find?
      (fun e => IS_VISIT_POSSIBLE e && !IS_VISIT_DONE st e) with
  | none => rw [hf] at h; cases h
  | some e2 =>
    rw [hf] at h
    cases h
    have hmem := List.mem_of_find?_eq_some hf
    have hpred := List.find?_some hf
    simp only [Bool.and_eq_true, Bool.not_eq_true'] at hpred
    exact ⟨(List.mem_filter.mp hmem).1, hpred.1, hpred.2, rfl⟩

theorem uidLookup_uidSet (st : UidMap) (a : Nat) (u : Int) (x : Nat) :
    uidLookup (uidSet st a u) x = if a = x then some u else uidLookup st x := by
  simp only [uidLookup, uidSet, List.find?]
  by_cases h : a = x
  · simp [h]
  · simp [h, (by simpa using h : (a == x) = false)]

theorem length_filter_update (p q : REdge → Bool) (e : REdge) :
    ∀ (l : List REdge), (l.map REdge.eid).Nodup → e ∈ l →
    (∀ x ∈ l, x.eid ≠ e.eid → q x = p x) →
    p e = false → q e = true →
    (l.filter q).length = (l.filter p).length + 1 := by
  intro l
  induction l with
  | nil => intro _ he; cases he
  | cons a as ih =>
    intro hnd he hsame hpe hqe
    simp only [List.map_cons, List.nodup_cons] at hnd
    rcases List.mem_cons.mp he with rfl | hmem
    · rw [List.filter_cons, List.filter_cons, hpe, hqe]
      have hcongr : List.filter q as = List.filter p as := by
        apply List.filter_congr
        intro x hx
        refine hsame x (List.mem_cons_of_mem _ hx) ?_
        intro hcontra
        exact hnd.1 (by rw [← hcontra]; exact List.mem_map_of_mem REdge.eid hx)
      simp [hcongr]
    · have haeid : a.eid ≠ e.eid := by
        intro hh
        exact hnd.1 (hh ▸ List.mem_map_of_mem REdge.eid hmem)
      have hrec := ih hnd.2 hmem (fun x hx => hsame x (List.mem_cons_of_mem a hx)) hpe hqe
      rw [List.filter_cons, List.filter_cons, hsame a (List.mem_cons_self a as) haeid]
      cases hpa : p a <;> simp [hpa, hrec]

theorem visitedCount_mark (m : RMesh) (st : UidMap) (v : Nat) (u : Int)
    (e : REdge) (st1 : UidMap)
    (hnd : (m.edges.map REdge.eid).Nodup)
    (hlf : ∀ x ∈ m.edges, x.manifold = true → x.lf.isSome = true)
    (h : edge_mark_step m st v u = some (e, st1)) :
    visitedCount m st1 = visitedCount m st + 1 := by
  obtain ⟨hmem, hposs, hdone, hst1⟩ := edge_mark_step_some m st v u e st1 h
  have hlfe : e.lf.isSome = true := by
    simp only [IS_VISIT_POSSIBLE, Bool.and_eq_true] at hposs
    exact hlf e hmem hposs.1
  unfold visitedCount
  apply length_filter_update (fun x => IS_VISIT_DONE st x) (fun x => IS_VISIT_DONE st1 x) e
      m.edges hnd hmem
  · intro x _ hx
    simp only [IS_VISIT_DONE, hst1, uidLookup_uidSet]
    rw [if_neg (fun hh => hx hh.symm)]
  · exact hdone
  · simp [IS_VISIT_DONE, hst1, uidLookup_uidSet, hlfe]

theorem visitedCount_le (m : RMesh) (st : UidMap) :
    visitedCount m st ≤ m.edges.length := by
  unfold visitedCount
  exact List.length_filter_le _ _

/-- Combined invariant of one directional walk: it visits exactly `tot`
previously unvisited edges, its final uid counter is `u + du * tot`, and
every uid it stamps is `u + du * t` for some `t < tot`. -/
theorem walkDir_spec (m : RMesh)
    (hnd : (m.edges.map REdge.eid).Nodup)
    (hlf : ∀ x ∈ m.edges, x.manifold = true → x.lf.isSome = true) :
    ∀ (fuel : Nat) (st : UidMap) (v : Nat) (u du : Int),
      visitedCount m (walkDir m fuel st v u du).1 =
        visitedCount m st + (walkDir m fuel st v u du).2.2.1 ∧
      (walkDir m fuel st v u du).2.2.2.1 =
        u + du * ((walkDir m fuel st v u du).2.2.1 : Int) ∧
      (∀ p ∈ (walkDir m fuel st v u du).2.2.2.2,
        ∃ t : Nat, t < (walkDir m fuel st v u du).2.2.1 ∧ p.2 = u + du * (t : Int)) := by
  intro fuel
  induction fuel with
  | zero =>
    intro st v u du
    simp [walkDir]
  | succ f ih =>
    intro st v u du
    simp only [walkDir]
    cases hm : edge_mark_step m st v u with
    | none => simp
    | some r =>
      obtain ⟨e, st1⟩ := r
      obtain ⟨ihc, ihu, iha⟩ := ih st1 (otherVert e v) (u + du) du
      refine ⟨?_, ?_, ?_⟩
      · simp only []
        rw [ihc, visitedCount_mark m st v u e st1 hnd hlf hm]
        omega
      · simp only []
        rw [ihu]
        push_cast
        ring
      · simp only []
        intro p hp
        rcases List.mem_cons.mp hp with rfl | hp2
        · exact ⟨0, by omega, by simp⟩
        · obtain ⟨t, ht, hval⟩ := iha p hp2
          refine ⟨t + 1, by omega, ?_⟩
          rw [hval]
          push_cast
          ring

/-- A successful seed search guarantees the forward walk marks at least one
edge (the seed itself is a candidate at its own `v1`). -/
theorem walkDir_tot_pos (m : RMesh) (st : UidMap) (e_first : REdge)
    (hseed : m.edges.find? (fun e => IS_VISIT_POSSIBLE e && !IS_VISIT_DONE st e) =
      some e_first) (f : Nat) (u du : Int) :
    1 ≤ (walkDir m (f + 1) st e_first.v1 u du).2.2.1 := by
  have hmem := List.mem_of_find?_eq_some hseed
  have hpred := List.find?_some hseed
  have hcand : e_first ∈ edgesOfVert m e_first.v1 := by
    apply List.mem_filter.mpr
    exact ⟨hmem, by simp⟩
  have hex : ∃ x ∈ edgesOfVert m e_first.v1,
      (IS_VISIT_POSSIBLE x && !IS_VISIT_DONE st x) = true := ⟨e_first, hcand, hpred⟩
  have hfind : ((edgesOfVert m e_first.v1).find?
      (fun e => IS_VISIT_POSSIBLE e && !IS_VISIT_DONE st e)).isSome := by
    rw [List.find?_isSome]
    exact hex
  simp only [walkDir]
  unfold edge_mark_step
  cases hf : (edgesOfVert m e_first.v1).find?
      (fun e => IS_VISIT_POSSIBLE e && !IS_VISIT_DONE st e) with
  | none => rw [hf] at hfind; cases hfind
  | some e2 => simp

/-- Main induction: the island loop, run from any state and counter, produces
islands satisfying the `chainOK` invariant for the remaining budget. -/
theorem looptagLoop_chainOK (m : RMesh)
    (hnd : (m.edges.map REdge.eid).Nodup)
    (hlf : ∀ x ∈ m.edges, x.manifold = true → x.lf.isSome = true) :
    ∀ (fuel : Nat) (st : UidMap) (u : Int),
      chainOK m (m.edges.length - visitedCount m st) u (looptagLoop m fuel st u).2 := by
  intro fuel
  induction fuel with
  | zero =>
    intro st u
    simp [looptagLoop, chainOK]
  | succ f ih =>
    intro st u
    simp only [looptagLoop]
    cases hseed : m.edges.find? (fun e => IS_VISIT_POSSIBLE e && !IS_VISIT_DONE st e) with
    | none => simp [chainOK]
    | some e_first =>
      simp only [chainOK]
      obtain ⟨hc1, hu1, ha1⟩ :=
        walkDir_spec m hnd hlf (m.edges.length + 1) st e_first.v1 u 1
      obtain ⟨hc2, hu2, ha2⟩ :=
        walkDir_spec m hnd hlf (m.edges.length + 1)
          (walkDir m (m.edges.length + 1) st e_first.v1 u 1).1 e_first.v1 (u - 1) (-1)
      have hpos := walkDir_tot_pos m st e_first hseed m.edges.length u 1
      have hle := visitedCount_le m
        (walkDir m (m.edges.length + 1)
          (walkDir m (m.edges.length + 1) st e_first.v1 u 1).1 e_first.v1 (u - 1) (-1)).1
      refine ⟨(walkDir m (m.edges.length + 1) st e_first.v1 u 1).2.2.1,
        (walkDir m (m.edges.length + 1)
          (walkDir m (m.edges.length + 1) st e_first.v1 u 1).1 e_first.v1 (u - 1) (-1)).2.2.1,
        hpos, ?_, ?_, ?_, ?_, ?_⟩
      · rw [hc2, hc1] at hle
        omega
      · rw [hu1]
        ring
      · rw [hu2]
        ring
      · intro p hp
        rcases List.mem_append.mp hp with hp1 | hp2
        · obtain ⟨t, ht, hval⟩ := ha1 p hp1
          rw [hu2, hu1]
          constructor <;> rw [hval] <;> omega
        · obtain ⟨t, ht, hval⟩ := ha2 p hp2
          rw [hu2, hu1]
          constructor <;> rw [hval] <;> omega
      · have hbudget : m.edges.length - visitedCount m
            (walkDir m (m.edges.length + 1)
              (walkDir m (m.edges.length + 1) st e_first.v1 u 1).1 e_first.v1 (u - 1) (-1)).1 =
            m.edges.length - visitedCount m st -
              ((walkDir m (m.edges.length + 1) st e_first.v1 u 1).2.2.1 +
               (walkDir m (m.edges.length + 1)
                 (walkDir m (m.edges.length + 1) st e_first.v1 u 1).1 e_first.v1
                   (u - 1) (-1)).2.2.1) := by
          rw [hc2, hc1]
          omega
        rw [← hbudget]
        exact ih _ _

theorem chainOK_lb (m : RMesh) :
    ∀ (l : List Island) (budget : Nat) (u : Int), chainOK m budget u l →
      ∀ isl ∈ l, u - budget + 1 ≤ isl.uid_start + 1 ∧ isl.uid_start + 1 ≤ isl.uid_end := by
  intro l
  induction l with
  | nil =>
    intro _ _ _ isl h
    cases h
  | cons a rest ih =>
    intro budget u hchain isl hmem
    obtain ⟨fwd, bwd, hf1, hfb, hend, hstart, _, hrest⟩ := hchain
    rcases List.mem_cons.mp hmem with rfl | hmem2
    · omega
    · have hsub := ih (budget - (fwd + bwd)) (a.uid_end + m.edges.length) hrest isl hmem2
      omega

theorem chainOK_pairwise (m : RMesh) :
    ∀ (l : List Island) (budget : Nat) (u : Int), chainOK m budget u l →
      budget ≤ m.edges.length →
      l.Pairwise (fun a b => a.uid_end + 2 ≤ b.uid_start + 1) := by
  intro l
  induction l with
  | nil =>
    intro _ _ _ _
    exact List.Pairwise.nil
  | cons a rest ih =>
    intro budget u hchain hble
    obtain ⟨fwd, bwd, hf1, hfb, hend, hstart, _, hrest⟩ := hchain
    constructor
    · intro b hb
      have hlb := chainOK_lb m rest (budget - (fwd + bwd)) (a.uid_end + m.edges.length)
        hrest b hb
      omega
    · exact ih (budget - (fwd + bwd)) _ hrest (by omega)

theorem chainOK_contain (m : RMesh) :
    ∀ (l : List Island) (budget : Nat) (u : Int), chainOK m budget u l →
      ∀ isl ∈ l, ∀ p ∈ isl.asg, isl.uid_start + 1 ≤ p.2 ∧ p.2 ≤ isl.uid_end := by
  intro l
  induction l with
  | nil =>
    intro _ _ _ isl h
    cases h
  | cons a rest ih =>
    intro budget u hchain isl hmem
    obtain ⟨fwd, bwd, _, _, _, _, hasg, hrest⟩ := hchain
    rcases List.mem_cons.mp hmem with rfl | hmem2
    · exact hasg
    · exact ih _ _ hrest isl hmem2

/-- C3: the sequence-id ranges of distinct islands are disjoint — no loop of
one island receives an id that occurs among another island's ids, nor one
that equals another island's id-minus-one probe value (in either direction).
The hypotheses say the mesh is well formed: edge identities are distinct, and
2-manifold edges have a loop. -/
theorem looptag_island_ids_disjoint (m : RMesh)
    (hnd : (m.edges.map REdge.eid).Nodup)
    (hlf : ∀ x ∈ m.edges, x.manifold = true → x.lf.isSome = true) :
    ((edbm_ripsel_looptag_helper m).2).Pairwise (fun a b =>
      ∀ p ∈ a.asg, ∀ q ∈ b.asg, p.2 ≠ q.2 ∧ p.2 ≠ q.2 - 1 ∧ q.2 ≠ p.2 - 1) := by
  have hchain := looptagLoop_chainOK m hnd hlf (m.edges.length + 1) []
    ((m.edges.length : Int))
  have hpair := chainOK_pairwise m _ _ _ hchain (by omega)
  have hcont := chainOK_contain m _ _ _ hchain
  unfold edbm_ripsel_looptag_helper
  refine List.Pairwise.imp_of_mem ?_ hpair
  intro a b ha hb hab p hp q hq
  have hpa := hcont a ha p hp
  have hqb := hcont b hb q hq
  omega

/-- C3 witness: the theorem applied to a concrete mesh with two tagged
manifold islands (two disjoint edges), whose islands indeed carry disjoint
id ranges. -/
theorem looptag_island_ids_disjoint_witness :
    (((({ edges :=
        [{ eid := 0, v1 := 0, v2 := 1, tag := true, manifold := true, sel := true,
           lf := some [0, 1, 4] },
         { eid := 1, v1 := 2, v2 := 3, tag := true, manifold := true, sel := true,
           lf := some [2, 3, 5] }], totvert := 6 } : RMesh).edges.map REdge.eid).Nodup) ∧
      (∀ x ∈ ({ edges :=
        [{ eid := 0, v1 := 0, v2 := 1, tag := true, manifold := true, sel := true,
           lf := some [0, 1, 4] },
         { eid := 1, v1 := 2, v2 := 3, tag := true, manifold := true, sel := true,
           lf := some [2, 3, 5] }], totvert := 6 } : RMesh).edges,
        x.manifold = true → x.lf.isSome = true)) ∧
    ((edbm_ripsel_looptag_helper
      { edges :=
        [{ eid := 0, v1 := 0, v2 := 1, tag := true, manifold := true, sel := true,
           lf := some [0, 1, 4] },
         { eid := 1, v1 := 2, v2 := 3, tag := true, manifold := true, sel := true,
           lf := some [2, 3, 5] }], totvert := 6 }).2).Pairwise (fun a b =>
      ∀ p ∈ a.asg, ∀ q ∈ b.asg, p.2 ≠ q.2 ∧ p.2 ≠ q.2 - 1 ∧ q.2 ≠ p.2 - 1) := by
  refine ⟨⟨by decide, by decide⟩, ?_⟩
  exact looptag_island_ids_disjoint _ (by decide) (by decide)

/-! ## Path-family lemmas -/

theorem find?_unique {α : Type} (p : α → Bool) (x : α) :
    ∀ l : List α, x ∈ l → p x = true → (∀ y ∈ l, p y = true → y = x) →
    l.find? p = some x := by
  intro l
  induction l with
  | nil => intro h; cases h
  | cons a as ih =>
    intro hmem hpx huniq
    cases hpa : p a with
    | true =>
      rw [List.find?_cons_of_pos _ hpa]
      rw [huniq a (List.mem_cons_self a as) hpa]
    | false =>
      rw [List.find?_cons_of_neg _ (by simp [hpa])]
      have hxa : x ≠ a := fun h => by rw [h] at hpx; rw [hpx] at hpa; cases hpa
      rcases List.mem_cons.mp hmem with rfl | hmem2
      · exact absurd rfl hxa
      · exact ih hmem2 hpx (fun y hy => huniq y (List.mem_cons_of_mem a hy))

theorem pathEdge_eid (i : Nat) : (pathEdge i).eid = i := rfl

theorem pathMesh_edges_length (k n : Nat) (hk : k ≤ n) :
    (pathMesh k n).edges.length = n := by
  simp [pathMesh]
  omega

theorem pathMesh_mem (k n : Nat) (hk : k ≤ n) (e : REdge) :
    e ∈ (pathMesh k n).edges ↔ ∃ i, i < n ∧ e = pathEdge i := by
  simp only [pathMesh, List.mem_map, List.mem_append, List.mem_range'_1, List.mem_range]
  constructor
  · rintro ⟨i, hi | hi, rfl⟩
    · exact ⟨i, by omega, rfl⟩
    · exact ⟨i, by omega, rfl⟩
  · rintro ⟨i, hi, rfl⟩
    refine ⟨i, ?_, rfl⟩
    by_cases hik : i < k
    · exact Or.inr hik
    · exact Or.inl (by omega)

theorem pathEdge_mem_pathMesh (k n : Nat) (hk : k ≤ n) (i : Nat) (hi : i < n) :
    pathEdge i ∈ (pathMesh k n).edges :=
  (pathMesh_mem k n hk (pathEdge i)).mpr ⟨i, hi, rfl⟩

theorem pathEdge_mem_edgesOfVert (k n : Nat) (hk : k ≤ n) (i v : Nat) (hi : i < n)
    (hv : i = v ∨ i + 1 = v) :
    pathEdge i ∈ edgesOfVert (pathMesh k n) v := by
  apply List.mem_filter.mpr
  refine ⟨pathEdge_mem_pathMesh k n hk i hi, ?_⟩
  rcases hv with rfl | rfl <;> simp [pathEdge]

theorem mem_edgesOfVert_pathMesh (k n : Nat) (hk : k ≤ n) (v : Nat) (y : REdge)
    (hy : y ∈ edgesOfVert (pathMesh k n) v) :
    ∃ i, i < n ∧ y = pathEdge i ∧ (i = v ∨ i + 1 = v) := by
  obtain ⟨hmem, hmatch⟩ := List.mem_filter.mp hy
  obtain ⟨i, hi, rfl⟩ := (pathMesh_mem k n hk y).mp hmem
  refine ⟨i, hi, rfl, ?_⟩
  simp only [pathEdge] at hmatch
  simp only [Bool.or_eq_true, beq_iff_eq] at hmatch
  exact hmatch

theorem pathMesh_edges_cons (k n : Nat) (hk : k < n) :
    (pathMesh k n).edges =
      pathEdge k :: ((List.range' (k + 1) (n - k - 1) ++ List.range k).map pathEdge) := by
  simp only [pathMesh]
  have h : n - k = (n - k - 1) + 1 := by omega
  rw [h]
  rfl

/-- During the ascending walk the tagger, standing at vertex `j` with edges
`k … j-1` already visited, marks exactly edge `j`. -/
theorem mark_step_path_fwd (k n : Nat) (hk : k < n) (j : Nat) (st : UidMap) (u : Int)
    (hkj : k ≤ j) (hjn : j < n)
    (hlook : ∀ i : Nat, (uidLookup st i).isSome = true ↔ (k ≤ i ∧ i < j)) :
    edge_mark_step (pathMesh k n) st j u = some (pathEdge j, uidSet st j u) := by
  have hnone : uidLookup st j = none := by
    cases hval : uidLookup st j with
    | none => rfl
    | some z => exact absurd ((hlook j).mp (by simp [hval])) (by omega)
  have hpred : (fun e => IS_VISIT_POSSIBLE e && !IS_VISIT_DONE st e) (pathEdge j) = true := by
    simp [IS_VISIT_POSSIBLE, pathEdge, IS_VISIT_DONE, hnone]
  unfold edge_mark_step
  have hfind : (edgesOfVert (pathMesh k n) j).find?
      (fun e => IS_VISIT_POSSIBLE e && !IS_VISIT_DONE st e) = some (pathEdge j) := by
    rcases Nat.eq_or_lt_of_le hkj with rfl | hjk
    · unfold edgesOfVert
      rw [pathMesh_edges_cons k n hk, List.filter_cons]
      rw [if_pos (by simp [pathEdge])]
      exact List.find?_cons_of_pos _ hpred
    · apply find?_unique
      · exact pathEdge_mem_edgesOfVert k n (by omega) j j hjn (Or.inl rfl)
      · exact hpred
      · intro y hy hpy
        obtain ⟨i, hi, rfl, hmatch⟩ := mem_edgesOfVert_pathMesh k n (by omega) j y hy
        rcases hmatch with rfl | hadj
        · rfl
        · exfalso
          have hdone : IS_VISIT_DONE st (pathEdge i) = true := by
            simp only [IS_VISIT_DONE, pathEdge, Option.isSome_some, Bool.true_and]
            exact (hlook i).mpr (by omega)
          rw [Bool.and_eq_true, hdone] at hpy
          simp at hpy
  rw [hfind]
  rfl

/-- During the descending walk the tagger, standing at vertex `j ≤ k` with
edges `k … n-1` and `j … k-1` already visited, marks exactly edge `j - 1`
(for `1 ≤ j`). -/
theorem mark_step_path_bwd (k n : Nat) (hk : k < n) (j : Nat) (st : UidMap) (u : Int)
    (hjk : j ≤ k) (hj1 : 1 ≤ j)
    (hlook : ∀ i : Nat, (uidLookup st i).isSome = true ↔
      ((k ≤ i ∧ i < n) ∨ (j ≤ i ∧ i < k))) :
    edge_mark_step (pathMesh k n) st j u = some (pathEdge (j - 1), uidSet st (j - 1) u) := by
  have hnone : uidLookup st (j - 1) = none := by
    cases hval : uidLookup st (j - 1) with
    | none => rfl
    | some z => exact absurd ((hlook (j - 1)).mp (by simp [hval])) (by omega)
  have hpred : (fun e => IS_VISIT_POSSIBLE e && !IS_VISIT_DONE st e) (pathEdge (j - 1)) = true := by
    simp [IS_VISIT_POSSIBLE, pathEdge, IS_VISIT_DONE, hnone]
  unfold edge_mark_step
  have hfind : (edgesOfVert (pathMesh k n) j).find?
      (fun e => IS_VISIT_POSSIBLE e && !IS_VISIT_DONE st e) = some (pathEdge (j - 1)) := by
    apply find?_unique
    · exact pathEdge_mem_edgesOfVert k n (by omega) (j - 1) j (by omega) (Or.inr (by omega))
    · exact hpred
    · intro y hy hpy
      obtain ⟨i, hi, rfl, hmatch⟩ := mem_edgesOfVert_pathMesh k n (by omega) j y hy
      rcases hmatch with rfl | hadj
      · exfalso
        have hdone : IS_VISIT_DONE st (pathEdge i) = true := by
          simp only [IS_VISIT_DONE, pathEdge, Option.isSome_some, Bool.true_and]
          exact (hlook i).mpr (by omega)
        rw [Bool.and_eq_true, hdone] at hpy
        simp at hpy
      · have : i = j - 1 := by omega
        rw [this]
  rw [hfind]
  rfl

/-- The ascending walk stops at vertex `n`: the only edge there is `n - 1`,
already visited. -/
theorem mark_step_path_fwd_stop (k n : Nat) (hk : k < n) (st : UidMap) (u : Int)
    (hlook : ∀ i : Nat, (uidLookup st i).isSome = true ↔ (k ≤ i ∧ i < n)) :
    edge_mark_step (pathMesh k n) st n u = none := by
  unfold edge_mark_step
  have hfind : (edgesOfVert (pathMesh k n) n).find?
      (fun e => IS_VISIT_POSSIBLE e && !IS_VISIT_DONE st e) = none := by
    rw [List.find?_eq_none]
    intro y hy
    obtain ⟨i, hi, rfl, hmatch⟩ := mem_edgesOfVert_pathMesh k n (by omega) n y hy
    have hieq : i = n - 1 := by omega
    have hdone : IS_VISIT_DONE st (pathEdge i) = true := by
      simp only [IS_VISIT_DONE, pathEdge, Option.isSome_some, Bool.true_and]
      exact (hlook i).mpr (by omega)
    simp [hdone]
  rw [hfind]

/-- The descending walk stops at vertex `0`: the only edge there is `0`,
already visited (or, when `k = 0`, visited by the ascending walk). -/
theorem mark_step_path_bwd_stop (k n : Nat) (hk : k < n) (st : UidMap) (u : Int)
    (hlook : ∀ i : Nat, (uidLookup st i).isSome = true ↔
      ((k ≤ i ∧ i < n) ∨ i < k)) :
    edge_mark_step (pathMesh k n) st 0 u = none := by
  unfold edge_mark_step
  have hfind : (edgesOfVert (pathMesh k n) 0).find?
      (fun e => IS_VISIT_POSSIBLE e && !IS_VISIT_DONE st e) = none := by
    rw [List.find?_eq_none]
    intro y hy
    obtain ⟨i, hi, rfl, hmatch⟩ := mem_edgesOfVert_pathMesh k n (by omega) 0 y hy
    have hieq : i = 0 := by omega
    have hdone : IS_VISIT_DONE st (pathEdge i) = true := by
      simp only [IS_VISIT_DONE, pathEdge, Option.isSome_some, Bool.true_and]
      refine (hlook i).mpr ?_
      by_cases hik : i < k
      · exact Or.inr hik
      · exact Or.inl (by omega)
    simp [hdone]
  rw [hfind]

/-- The ascending `while` loop of the tagger on the path run: entered at
vertex `j` with edges `k … j-1` already stamped `n-k+i`, it stamps edges
`j … n-1` with ascending uids `n-k+j, …, 2n-k-1`, its last marked edge is
edge `n-1`, and it marks `n - j` edges. -/
theorem walkDir_path_fwd (k n : Nat) (hk : k < n) :
    ∀ (fuel : Nat) (j : Nat) (st : UidMap), k ≤ j → j ≤ n → n - j ≤ fuel →
    (∀ i : Nat, uidLookup st i =
      if k ≤ i ∧ i < j then some ((n : Int) - (k : Int) + (i : Int)) else none) →
    (walkDir (pathMesh k n) fuel st j ((n : Int) - (k : Int) + (j : Int)) 1).2.2.1 = n - j ∧
    (walkDir (pathMesh k n) fuel st j ((n : Int) - (k : Int) + (j : Int)) 1).2.1 =
      (if j < n then some (pathEdge (n - 1)) else none) ∧
    (∀ i : Nat,
      uidLookup (walkDir (pathMesh k n) fuel st j ((n : Int) - (k : Int) + (j : Int)) 1).1 i =
        if k ≤ i ∧ i < n then some ((n : Int) - (k : Int) + (i : Int)) else none) := by
  intro fuel
  induction fuel with
  | zero =>
    intro j st hkj hjn hfuel hlook
    have hj : j = n := by omega
    subst hj
    simp only [walkDir]
    refine ⟨by omega, by simp, ?_⟩
    intro i
    exact hlook i
  | succ f ih =>
    intro j st hkj hjn hfuel hlook
    have hlook2 : ∀ i : Nat, (uidLookup st i).isSome = true ↔ (k ≤ i ∧ i < j) := by
      intro i
      rw [hlook i]
      split <;> simp_all
    rcases Nat.eq_or_lt_of_le hjn with rfl | hjlt
    · simp only [walkDir]
      rw [mark_step_path_fwd_stop k j hk st _ hlook2]
      refine ⟨by simp, by simp, ?_⟩
      intro i
      exact hlook i
    · simp only [walkDir]
      rw [mark_step_path_fwd k n hk j st _ hkj hjlt hlook2]
      simp only []
      have hother : otherVert (pathEdge j) j = j + 1 := by
        simp [otherVert, pathEdge]
      have hstep : ((n : Int) - (k : Int) + (j : Int)) + 1 =
          (n : Int) - (k : Int) + ((j + 1 : Nat) : Int) := by
        push_cast
        ring
      have hlook1 : ∀ i : Nat, uidLookup (uidSet st j ((n : Int) - (k : Int) + (j : Int))) i =
          if k ≤ i ∧ i < j + 1 then some ((n : Int) - (k : Int) + (i : Int)) else none := by
        intro i
        rw [uidLookup_uidSet]
        by_cases hij : j = i
        · subst hij
          rw [if_pos rfl, if_pos (by omega)]
        · rw [if_neg hij, hlook i]
          by_cases hc : k ≤ i ∧ i < j
          · rw [if_pos hc, if_pos (by omega)]
          · rw [if_neg hc, if_neg (by omega)]
      obtain ⟨iht, ihl, ihs⟩ := ih (j + 1) (uidSet st j ((n : Int) - (k : Int) + (j : Int)))
        (by omega) (by omega) (by omega) hlook1
      rw [hother, hstep]
      refine ⟨by rw [iht]; omega, ?_, ihs⟩
      rw [ihl]
      by_cases hj1 : j + 1 < n
      · rw [if_pos hj1, if_pos (by omega)]
      · have : j = n - 1 := by omega
        rw [if_neg hj1, if_pos (by omega), this]

/-- The descending `while` loop of the tagger on the path run: entered at
vertex `j ≤ k` with edges `k … n-1` and `j … k-1` already stamped, it stamps
edges `j-1 … 0` with descending uids and marks `j` edges, completing the
stamping of the whole run. -/
theorem walkDir_path_bwd (k n : Nat) (hk : k < n) :
    ∀ (fuel : Nat) (j : Nat) (st : UidMap), j ≤ k → j ≤ fuel →
    (∀ i : Nat, uidLookup st i =
      if (k ≤ i ∧ i < n) ∨ (j ≤ i ∧ i < k) then some ((n : Int) - (k : Int) + (i : Int))
      else none) →
    (walkDir (pathMesh k n) fuel st j ((n : Int) - (k : Int) + (j : Int) - 1) (-1)).2.2.1 = j ∧
    (∀ i : Nat,
      uidLookup
          (walkDir (pathMesh k n) fuel st j ((n : Int) - (k : Int) + (j : Int) - 1) (-1)).1 i =
        if i < n then some ((n : Int) - (k : Int) + (i : Int)) else none) := by
  intro fuel
  induction fuel with
  | zero =>
    intro j st hjk hfuel hlook
    have hj : j = 0 := by omega
    subst hj
    simp only [walkDir]
    refine ⟨by simp, ?_⟩
    intro i
    rw [hlook i]
    exact if_congr (by omega) rfl rfl
  | succ f ih =>
    intro j st hjk hfuel hlook
    have hlook2 : ∀ i : Nat, (uidLookup st i).isSome = true ↔
        ((k ≤ i ∧ i < n) ∨ (j ≤ i ∧ i < k)) := by
      intro i
      rw [hlook i]
      split <;> simp_all
    rcases Nat.eq_zero_or_pos j with rfl | hj1
    · simp only [walkDir]
      rw [mark_step_path_bwd_stop k n hk st _ (by
        intro i
        rw [hlook2 i]
        omega)]
      refine ⟨by simp, ?_⟩
      intro i
      rw [hlook i]
      exact if_congr (by omega) rfl rfl
    · simp only [walkDir]
      rw [mark_step_path_bwd k n hk j st _ hjk hj1 hlook2]
      simp only []
      have hother : otherVert (pathEdge (j - 1)) j = j - 1 := by
        simp only [otherVert, pathEdge]
        rw [if_neg (by simp; omega)]
      have hstep : ((n : Int) - (k : Int) + (j : Int) - 1) + (-1) =
          (n : Int) - (k : Int) + ((j - 1 : Nat) : Int) - 1 := by
        have : ((j - 1 : Nat) : Int) = (j : Int) - 1 := by omega
        rw [this]
        ring
      have hlook1 : ∀ i : Nat,
          uidLookup (uidSet st (j - 1) ((n : Int) - (k : Int) + (j : Int) - 1)) i =
            if (k ≤ i ∧ i < n) ∨ (j - 1 ≤ i ∧ i < k) then
              some ((n : Int) - (k : Int) + (i : Int))
            else none := by
        intro i
        rw [uidLookup_uidSet]
        by_cases hij : j - 1 = i
        · subst hij
          rw [if_pos rfl, if_pos (by omega)]
          congr 1
          omega
        · rw [if_neg hij, hlook i]
          by_cases hc : (k ≤ i ∧ i < n) ∨ (j ≤ i ∧ i < k)
          · rw [if_pos hc, if_pos (by omega)]
          · rw [if_neg hc, if_neg (by omega)]
      obtain ⟨iht, ihs⟩ := ih (j - 1)
        (uidSet st (j - 1) ((n : Int) - (k : Int) + (j : Int) - 1))
        (by omega) (by omega) hlook1
      rw [hother, hstep]
      refine ⟨by rw [iht]; omega, ihs⟩

theorem looptagLoop_done (m : RMesh) (fuel : Nat) (st : UidMap) (u : Int)
    (h : m.edges.find? (fun e => IS_VISIT_POSSIBLE e && !IS_VISIT_DONE st e) = none) :
    looptagLoop m fuel st u = (st, []) := by
  cases fuel with
  | zero => rfl
  | succ f =>
    simp only [looptagLoop]
    rw [h]

/-- The loop tagger on the path run: every edge `i` is stamped `n - k + i`
(so ids are consecutive along the run, rising from end `0` to end `n`), and
exactly one island is recorded, whose last edge — the one carrying the
highest id — is edge `n - 1`. -/
theorem looptag_path (k n : Nat) (hk : k < n) :
    (∀ i : Nat, uidLookup (edbm_ripsel_looptag_helper (pathMesh k n)).1 i =
      if i < n then some ((n : Int) - (k : Int) + (i : Int)) else none) ∧
    ∃ isl : Island, (edbm_ripsel_looptag_helper (pathMesh k n)).2 = [isl] ∧
      isl.last = n - 1 := by
  have hkn : k ≤ n := by omega
  have hlen := pathMesh_edges_length k n hkn
  obtain ⟨hft, hfl, hfs⟩ := walkDir_path_fwd k n hk (n + 1) k [] (le_refl k) hkn
    (by omega) (by
      intro i
      rw [if_neg (by omega)]
      rfl)
  obtain ⟨hbt, hbs⟩ := walkDir_path_bwd k n hk (n + 1) k
    (walkDir (pathMesh k n) (n + 1) [] k ((n : Int) - (k : Int) + (k : Int)) 1).1
    (le_refl k) (by omega) (by
      intro i
      rw [hfs i]
      exact if_congr (by omega) rfl rfl)
  have huid2 : (n : Int) - (k : Int) + (k : Int) = (n : Int) := by ring
  rw [huid2] at hft hfl hfs hbt hbs
  have hseed : (pathMesh k n).edges.find?
      (fun e => IS_VISIT_POSSIBLE e && !IS_VISIT_DONE [] e) = some (pathEdge k) := by
    rw [pathMesh_edges_cons k n hk]
    apply List.find?_cons_of_pos
    simp [IS_VISIT_POSSIBLE, IS_VISIT_DONE, pathEdge, uidLookup]
  have hdone2 : (pathMesh k n).edges.find?
      (fun e => IS_VISIT_POSSIBLE e && !IS_VISIT_DONE
        (walkDir (pathMesh k n) (n + 1)
          (walkDir (pathMesh k n) (n + 1) [] k ((n : Int)) 1).1 k
          ((n : Int) - 1) (-1)).1 e) = none := by
    rw [List.find?_eq_none]
    intro e he
    obtain ⟨i, hi, rfl⟩ := (pathMesh_mem k n hkn e).mp he
    have hbsi := hbs i
    rw [if_pos hi] at hbsi
    have hD : IS_VISIT_DONE
        (walkDir (pathMesh k n) (n + 1)
          (walkDir (pathMesh k n) (n + 1) [] k ((n : Int)) 1).1 k
          ((n : Int) - 1) (-1)).1 (pathEdge i) = true := by
      simp only [IS_VISIT_DONE, pathEdge, Option.isSome_some, Bool.true_and, hbsi]
    simp [hD]
  have hv1 : (pathEdge k).v1 = k := rfl
  rw [edbm_ripsel_looptag_helper, hlen]
  simp only [looptagLoop]
  rw [hseed]
  simp only [hv1, hlen]
  rw [looptagLoop_done _ _ _ _ hdone2]
  constructor
  · intro i
    exact hbs i
  · refine ⟨_, rfl, ?_⟩
    simp only [hfl, if_pos hk]
    rfl

/-- One step of the post-split walk on the path: standing on edge `j`, entered
from vertex `j + 1`, the unique edge at vertex `j` whose loop id is one less
is edge `j - 1`; at edge `0` no such edge exists and the walk stops. -/
theorem uid_step_path (k n : Nat) (hk : k < n) (st : UidMap)
    (hlook : ∀ i : Nat, uidLookup st i =
      if i < n then some ((n : Int) - (k : Int) + (i : Int)) else none)
    (j : Nat) (hj : j < n) :
    edbm_ripsel_edge_uid_step (pathMesh k n) st (pathEdge j) (j + 1) =
      if 1 ≤ j then some (pathEdge (j - 1), j) else none := by
  have hv : otherVert (pathEdge j) (j + 1) = j := by
    simp [otherVert, pathEdge]
  simp only [edbm_ripsel_edge_uid_step, hv, pathEdge_eid]
  rw [hlook j, if_pos hj]
  rcases Nat.eq_zero_or_pos j with rfl | hj1
  · rw [if_neg (by omega)]
    have hfind : (edgesOfVert (pathMesh k n) 0).find?
        (fun e => uidLookup st e.eid == some ((n : Int) - (k : Int) - 1)) =
        none := by
      rw [List.find?_eq_none]
      intro y hy
      obtain ⟨i, hi, rfl, hmatch⟩ := mem_edgesOfVert_pathMesh k n (by omega) 0 y hy
      have hieq : i = 0 := by omega
      subst hieq
      rw [pathEdge_eid, hlook 0, if_pos (by omega)]
      simp only [beq_iff_eq, Option.some.injEq]
      intro hcontra
      omega
    simp [hfind]
  · rw [if_pos (by omega : 1 ≤ j)]
    have hfind : (edgesOfVert (pathMesh k n) j).find?
        (fun e => uidLookup st e.eid == some ((n : Int) - (k : Int) + (j : Int) - 1)) =
        some (pathEdge (j - 1)) := by
      apply find?_unique
      · exact pathEdge_mem_edgesOfVert k n (by omega) (j - 1) j (by omega) (Or.inr (by omega))
      · rw [pathEdge_eid, hlook (j - 1), if_pos (by omega)]
        simp only [beq_iff_eq, Option.some.injEq]
        omega
      · intro y hy hpy
        obtain ⟨i, hi, rfl, hmatch⟩ := mem_edgesOfVert_pathMesh k n (by omega) j y hy
        rw [pathEdge_eid, hlook i, if_pos hi] at hpy
        simp only [beq_iff_eq, Option.some.injEq] at hpy
        have : i = j - 1 := by omega
        rw [this]
    simp [hfind]

/-- The start-vertex probe on the path: stepping from `v1` of the last edge
fails (the far end `n` has no id-one-less edge), so the walk starts at `v1`
of edge `n - 1`... the probe returns `v2 = n` as the first `v_prev`. -/
theorem start_vert_path (k n : Nat) (hk : k < n) (st : UidMap)
    (hlook : ∀ i : Nat, uidLookup st i =
      if i < n then some ((n : Int) - (k : Int) + (i : Int)) else none) :
    edbm_ripsel_edloop_pair_start_vert (pathMesh k n) st (pathEdge (n - 1)) = n := by
  have hv : otherVert (pathEdge (n - 1)) ((pathEdge (n - 1)).v1) = n := by
    simp only [otherVert, pathEdge]
    rw [if_pos (by simp)]
    omega
  have hstep : edbm_ripsel_edge_uid_step (pathMesh k n) st (pathEdge (n - 1))
      ((pathEdge (n - 1)).v1) = none := by
    simp only [edbm_ripsel_edge_uid_step, hv]
    rw [pathEdge_eid, hlook (n - 1), if_pos (by omega)]
    have hfind : (edgesOfVert (pathMesh k n) n).find?
        (fun e => uidLookup st e.eid ==
          some ((n : Int) - (k : Int) + ((n - 1 : Nat) : Int) - 1)) = none := by
      rw [List.find?_eq_none]
      intro y hy
      obtain ⟨i, hi, rfl, hmatch⟩ := mem_edgesOfVert_pathMesh k n (by omega) n y hy
      have hieq : i = n - 1 := by omega
      subst hieq
      rw [pathEdge_eid, hlook (n - 1), if_pos (by omega)]
      simp only [beq_iff_eq, Option.some.injEq]
      intro hcontra
      omega
    simp [hfind]
  unfold edbm_ripsel_edloop_pair_start_vert
  rw [hstep]
  simp only [Option.isSome_none, Bool.false_eq_true, if_false, pathEdge]
  omega

/-- The post-split walk on the path from edge `j` (entered at `j + 1`) visits
exactly the edges `j, j-1, …, 0`, in that order. -/
theorem uid_walk_path (k n : Nat) (hk : k < n) (st : UidMap)
    (hlook : ∀ i : Nat, uidLookup st i =
      if i < n then some ((n : Int) - (k : Int) + (i : Int)) else none) :
    ∀ (j : Nat), j < n → ∀ fuel : Nat, j ≤ fuel →
    uid_walk (pathMesh k n) st fuel (pathEdge j) (j + 1) =
      ((List.range (j + 1)).reverse).map pathEdge := by
  intro j
  induction j with
  | zero =>
    intro hj fuel _
    cases fuel with
    | zero => simp [uid_walk, List.range_succ]
    | succ f =>
      simp only [uid_walk]
      rw [uid_step_path k n hk st hlook 0 hj, if_neg (by omega)]
      simp [List.range_succ]
  | succ j ih =>
    intro hj fuel hf
    obtain ⟨f, rfl⟩ : ∃ f, fuel = f + 1 := ⟨fuel - 1, by omega⟩
    simp only [uid_walk]
    rw [uid_step_path k n hk st hlook (j + 1) hj, if_pos (by omega)]
    simp only [Nat.add_sub_cancel]
    rw [ih (by omega) f (by omega)]
    rw [List.range_succ]
    simp [List.range_succ]

/-- Consecutive-decrement chain along the reversed run. -/
theorem chain_decrement (g : Nat → Option Int) :
    ∀ n : Nat, (∀ i : Nat, i + 1 < n → g i = (g (i + 1)).map (fun z => z - 1)) →
    List.Chain' (fun a b => g b.eid = (g a.eid).map (fun z => z - 1))
      (((List.range n).reverse).map pathEdge) := by
  intro n
  induction n with
  | zero =>
    intro _
    simp
  | succ m ih =>
    intro h
    rw [List.range_succ]
    simp only [List.reverse_append, List.reverse_cons, List.reverse_nil, List.nil_append,
      List.singleton_append, List.map_cons]
    rw [List.chain'_cons']
    constructor
    · intro b hb
      cases m with
      | zero => simp at hb
      | succ j =>
        rw [List.range_succ] at hb
        simp only [List.reverse_append, List.reverse_cons, List.reverse_nil, List.nil_append,
          List.singleton_append, List.map_cons, List.head?_cons, Option.mem_def,
          Option.some.injEq] at hb
        subst hb
        rw [pathEdge_eid, pathEdge_eid]
        exact h j (by omega)
    · exact ih (fun i hi => h i (by omega))

theorem pathEdge_injective : Function.Injective pathEdge := by
  intro a b h
  simpa [pathEdge] using congrArg REdge.eid h

/-- C2: on a maximal run of tagged 2-manifold edges (the path family, any
length `n ≥ 1` and any seed position `k`), after the tagger finishes (a) one
island is recorded and its last edge is edge `n - 1`, the edge with the
highest id; (b) edge `i` carries id `n - k + i`, so walking from the last
edge each successive edge carries an id exactly one less than the previous
one (the `Chain'` clause); and (c) the post-split walk that looks up, at the
current vertex, the unique edge whose loop id is the current id minus one
visits every edge of the side exactly once (the walk is the full reversed
run, without repetition) and then stops (the step from edge `0` is `none`). -/
theorem looptag_path_walk_spec (k n : Nat) (hk : k < n) :
    (∃ isl, (edbm_ripsel_looptag_helper (pathMesh k n)).2 = [isl] ∧ isl.last = n - 1) ∧
    (∀ i : Nat, i < n →
      uidLookup (edbm_ripsel_looptag_helper (pathMesh k n)).1 i =
        some ((n : Int) - (k : Int) + (i : Int))) ∧
    sideWalk (pathMesh k n) (edbm_ripsel_looptag_helper (pathMesh k n)).1 (pathEdge (n - 1)) =
      ((List.range n).reverse).map pathEdge ∧
    List.Chain' (fun a b =>
        uidLookup (edbm_ripsel_looptag_helper (pathMesh k n)).1 b.eid =
          (uidLookup (edbm_ripsel_looptag_helper (pathMesh k n)).1 a.eid).map (fun z => z - 1))
      (sideWalk (pathMesh k n) (edbm_ripsel_looptag_helper (pathMesh k n)).1
        (pathEdge (n - 1))) ∧
    (((List.range n).reverse).map pathEdge).Nodup ∧
    edbm_ripsel_edge_uid_step (pathMesh k n) (edbm_ripsel_looptag_helper (pathMesh k n)).1
      (pathEdge 0) 1 = none := by
  obtain ⟨hlook, hisl⟩ := looptag_path k n hk
  have hwalk : sideWalk (pathMesh k n) (edbm_ripsel_looptag_helper (pathMesh k n)).1
      (pathEdge (n - 1)) = ((List.range n).reverse).map pathEdge := by
    unfold sideWalk
    rw [pathMesh_edges_length k n (by omega)]
    rw [start_vert_path k n hk _ hlook]
    have hn : n - 1 + 1 = n := by omega
    have hw := uid_walk_path k n hk _ hlook (n - 1) (by omega) n (by omega)
    rw [hn] at hw
    exact hw
  refine ⟨hisl, ?_, hwalk, ?_, ?_, ?_⟩
  · intro i hi
    rw [hlook i, if_pos hi]
  · rw [hwalk]
    apply chain_decrement
    intro i hi
    rw [hlook i, if_pos (by omega), hlook (i + 1), if_pos hi]
    simp only [Option.map_some']
    congr 1
    push_cast
    ring
  · exact List.Nodup.map pathEdge_injective (List.nodup_reverse.mpr (List.nodup_range n))
  · have hstep := uid_step_path k n hk _ hlook 0 (by omega)
    simpa using hstep

/-- C2 witness: the theorem applied to the concrete run with three edges and
the seed in the middle. -/
theorem looptag_path_walk_spec_witness :
    1 < 3 ∧
    sideWalk (pathMesh 1 3) (edbm_ripsel_looptag_helper (pathMesh 1 3)).1 (pathEdge (3 - 1)) =
      ((List.range 3).reverse).map pathEdge := by
  exact ⟨by decide, (looptag_path_walk_spec 1 3 (by decide)).2.2.1⟩

/-! ## Side-measure sign analysis -/

/-- C9 (amended): for an edge with an adjacent loop, the side measure's
absolute value is the projected 2D length of the edge, and — whenever that
length is positive — the measure is positive exactly when moving the cursor
*against* the edge-midpoint-to-opposite-midpoint vector (the source subtracts
the nudge from the mouse) strictly increases the squared distance to the
projected edge segment, and negative exactly otherwise. -/
theorem side_measure_sign_spec (view : View) (e : REdge) (f : List Nat) (v1o v2o : Nat)
    (hf : e.lf = some f)
    (h1 : BM_face_other_vert_loop f e.v2 e.v1 = some v1o)
    (h2 : BM_face_other_vert_loop f e.v1 e.v2 = some v2o) :
    |edbm_rip_edge_side_measure view e| =
      len_v2v2 (view.proj (view.co e.v1)) (view.proj (view.co e.v2)) ∧
    (0 < len_v2v2 (view.proj (view.co e.v1)) (view.proj (view.co e.v2)) →
      ((0 < edbm_rip_edge_side_measure view e ↔
        dist_squared_to_line_segment_v2 view.fmval (view.proj (view.co e.v1))
            (view.proj (view.co e.v2)) <
          dist_squared_to_line_segment_v2
            (view.fmval.1 - (side_nudge_vec view e.v1 e.v2 v1o v2o).1,
             view.fmval.2 - (side_nudge_vec view e.v1 e.v2 v1o v2o).2)
            (view.proj (view.co e.v1)) (view.proj (view.co e.v2))) ∧
       (edbm_rip_edge_side_measure view e < 0 ↔
        ¬ dist_squared_to_line_segment_v2 view.fmval (view.proj (view.co e.v1))
            (view.proj (view.co e.v2)) <
          dist_squared_to_line_segment_v2
            (view.fmval.1 - (side_nudge_vec view e.v1 e.v2 v1o v2o).1,
             view.fmval.2 - (side_nudge_vec view e.v1 e.v2 v1o v2o).2)
            (view.proj (view.co e.v1)) (view.proj (view.co e.v2))))) := by
  have hunfold : edbm_rip_edge_side_measure view e =
      side_measure_core view e.v1 e.v2 v1o v2o := by
    simp [edbm_rip_edge_side_measure, hf, h1, h2]
  rw [hunfold]
  unfold side_measure_core
  simp only []
  set L := len_v2v2 (view.proj (view.co e.v1)) (view.proj (view.co e.v2)) with hL
  have hL0 : 0 ≤ L := Real.sqrt_nonneg _
  split
  · rename_i hcond
    refine ⟨abs_of_nonneg hL0, fun hpos => ⟨⟨fun _ => hcond, fun _ => hpos⟩, ?_, ?_⟩⟩
    · intro h
      linarith
    · intro h
      exact absurd hcond h
  · rename_i hcond
    refine ⟨by rw [abs_neg]; exact abs_of_nonneg hL0, fun hpos => ⟨⟨?_, ?_⟩, ?_⟩⟩
    · intro h
      linarith
    · intro h
      exact absurd h hcond
    · exact ⟨fun _ => hcond, fun _ => by linarith⟩

/-- Evaluation helper. -/
theorem sqrt_nine_eq : Real.sqrt 9 = 3 := by
  rw [show (9:ℝ) = 3^2 by norm_num]
  exact Real.sqrt_sq (by norm_num)

theorem sqrt_four_eq : Real.sqrt 4 = 2 := by
  rw [show (4:ℝ) = 2^2 by norm_num]
  exact Real.sqrt_sq (by norm_num)

theorem cNudge_eq : side_nudge_vec cView 0 1 2 2 = (0, 1 / 100) := by
  have hco0 : cView.co 0 = (0, 0, 0) := rfl
  have hco1 : cView.co 1 = (2, 0, 0) := rfl
  have hco2 : cView.co 2 = (1, 3, 0) := rfl
  unfold side_nudge_vec
  rw [hco2, hco1, hco0]
  unfold midpoint3 normalize_v2_length cView
  norm_num
  rw [sqrt_nine_eq]
  norm_num

theorem cDist_base : dist_squared_to_line_segment_v2 (1, 1) (0, 0) (2, 0) = 1 := by
  unfold dist_squared_to_line_segment_v2 closest_to_line_segment_v2 dist_sq_v2
  norm_num

theorem cDist_sub : dist_squared_to_line_segment_v2 (1, 99/100) (0, 0) (2, 0) = 9801/10000 := by
  unfold dist_squared_to_line_segment_v2 closest_to_line_segment_v2 dist_sq_v2
  norm_num

theorem cDist_add : dist_squared_to_line_segment_v2 (1, 101/100) (0, 0) (2, 0) = 10201/10000 := by
  unfold dist_squared_to_line_segment_v2 closest_to_line_segment_v2 dist_sq_v2
  norm_num

theorem cLen_eq : len_v2v2 (0, 0) (2, 0) = 2 := by
  unfold len_v2v2 dist_sq_v2
  norm_num
  rw [sqrt_four_eq]

/-- C9 counterexample: at the concrete configuration `cView`/`cEdgeC9` the
side measure is negative, yet moving the cursor *along* the
midpoint-to-opposite-midpoint vector (the nudge direction the claim
describes) strictly increases the squared distance to the projected edge —
so the claim's sign criterion predicts a positive measure and fails.  The
source subtracts the nudge vector from the mouse position
(`sub_v2_v2v2(fmval_tweak, fmval, vec)`, editmesh_rip.cc:142), so the sign
tests the *opposite* nudge direction. -/
theorem side_measure_sign_claim_false :
    edbm_rip_edge_side_measure cView cEdgeC9 < 0 ∧
    dist_squared_to_line_segment_v2 cView.fmval
        (cView.proj (cView.co cEdgeC9.v1)) (cView.proj (cView.co cEdgeC9.v2)) <
      dist_squared_to_line_segment_v2
        (cView.fmval.1 + (side_nudge_vec cView cEdgeC9.v1 cEdgeC9.v2 2 2).1,
         cView.fmval.2 + (side_nudge_vec cView cEdgeC9.v1 cEdgeC9.v2 2 2).2)
        (cView.proj (cView.co cEdgeC9.v1)) (cView.proj (cView.co cEdgeC9.v2)) := by
  simp only [show cEdgeC9.v1 = 0 from rfl, show cEdgeC9.v2 = 1 from rfl]
  have hp0 : cView.proj (cView.co 0) = ((0:ℝ), (0:ℝ)) := rfl
  have hp1 : cView.proj (cView.co 1) = ((2:ℝ), (0:ℝ)) := rfl
  have hfm : cView.fmval = ((1:ℝ), (1:ℝ)) := rfl
  have h1 : BM_face_other_vert_loop [0,1,2] 1 0 = some 2 := by decide
  have h2 : BM_face_other_vert_loop [0,1,2] 0 1 = some 2 := by decide
  have hmeas : edbm_rip_edge_side_measure cView cEdgeC9 = -2 := by
    have hcore : edbm_rip_edge_side_measure cView cEdgeC9 =
        side_measure_core cView 0 1 2 2 := by
      simp [edbm_rip_edge_side_measure, show cEdgeC9.lf = some [0,1,2] from rfl,
        show cEdgeC9.v1 = 0 from rfl, show cEdgeC9.v2 = 1 from rfl, h1, h2]
    rw [hcore]
    simp only [side_measure_core]
    rw [hp0, hp1, hfm, cNudge_eq]
    rw [show ((((1:ℝ), (1:ℝ)).1 - ((0:ℝ), (1/100:ℝ)).1,
        ((1:ℝ), (1:ℝ)).2 - ((0:ℝ), (1/100:ℝ)).2) : ℝ × ℝ) =
        ((1:ℝ), (99/100:ℝ)) from by norm_num]
    rw [cDist_base, cDist_sub, cLen_eq]
    rw [if_neg (by norm_num : ¬ (1:ℝ) < 9801/10000)]
  refine ⟨by rw [hmeas]; norm_num, ?_⟩
  rw [hp0, hp1, hfm, cNudge_eq]
  rw [show ((((1:ℝ), (1:ℝ)).1 + ((0:ℝ), (1/100:ℝ)).1,
      ((1:ℝ), (1:ℝ)).2 + ((0:ℝ), (1/100:ℝ)).2) : ℝ × ℝ) =
      ((1:ℝ), (101/100:ℝ)) from by norm_num]
  rw [cDist_base, cDist_add]
  norm_num

/-- C9 witness: the amended theorem applied to the concrete edge. -/
theorem side_measure_sign_spec_witness :
    cEdgeC9.lf = some [0, 1, 2] ∧
    BM_face_other_vert_loop [0, 1, 2] cEdgeC9.v2 cEdgeC9.v1 = some 2 ∧
    BM_face_other_vert_loop [0, 1, 2] cEdgeC9.v1 cEdgeC9.v2 = some 2 ∧
    |edbm_rip_edge_side_measure cView cEdgeC9| =
      len_v2v2 (cView.proj (cView.co cEdgeC9.v1)) (cView.proj (cView.co cEdgeC9.v2)) :=
  ⟨rfl, by decide, by decide,
    (side_measure_sign_spec cView cEdgeC9 [0, 1, 2] 2 2 rfl (by decide) (by decide)).1⟩

/-- Nudge vector of side a: the apex sits at `(1,-3)`, so the nudge points
straight down. -/
theorem c1Nudge_a : side_nudge_vec c1View 0 1 2 2 = (0, -(1 / 100)) := by
  have hco0 : c1View.co 0 = (0, 0, 0) := rfl
  have hco1 : c1View.co 1 = (2, 0, 0) := rfl
  have hco2 : c1View.co 2 = (1, -3, 0) := rfl
  unfold side_nudge_vec
  rw [hco2, hco1, hco0]
  unfold midpoint3 normalize_v2_length c1View
  norm_num
  rw [sqrt_nine_eq]
  norm_num

/-- Nudge vector of side b: the apex sits at `(1,3)`, so the nudge points
straight up. -/
theorem c1Nudge_b : side_nudge_vec c1View 3 4 5 5 = (0, 1 / 100) := by
  have hco3 : c1View.co 3 = (0, 0, 0) := rfl
  have hco4 : c1View.co 4 = (2, 0, 0) := rfl
  have hco5 : c1View.co 5 = (1, 3, 0) := rfl
  unfold side_nudge_vec
  rw [hco5, hco4, hco3]
  unfold midpoint3 normalize_v2_length c1View
  norm_num
  rw [sqrt_nine_eq]
  norm_num

/-- Side-a measure: the nudged mouse `(1, 1.01)` is farther from the edge
than the mouse, so the measure is the positive projected length. -/
theorem c1_measure_a : edbm_rip_edge_side_measure c1View eA1 = 2 := by
  have h1 : BM_face_other_vert_loop [0, 1, 2] 1 0 = some 2 := by decide
  have h2 : BM_face_other_vert_loop [0, 1, 2] 0 1 = some 2 := by decide
  have hcore : edbm_rip_edge_side_measure c1View eA1 =
      side_measure_core c1View 0 1 2 2 := by
    simp [edbm_rip_edge_side_measure, show eA1.lf = some [0, 1, 2] from rfl,
      show eA1.v1 = 0 from rfl, show eA1.v2 = 1 from rfl, h1, h2]
  have hp0 : c1View.proj (c1View.co 0) = ((0:ℝ), (0:ℝ)) := rfl
  have hp1 : c1View.proj (c1View.co 1) = ((2:ℝ), (0:ℝ)) := rfl
  have hfm : c1View.fmval = ((1:ℝ), (1:ℝ)) := rfl
  rw [hcore]
  simp only [side_measure_core]
  rw [hp0, hp1, hfm, c1Nudge_a]
  rw [show ((((1:ℝ), (1:ℝ)).1 - ((0:ℝ), -(1/100:ℝ)).1,
      ((1:ℝ), (1:ℝ)).2 - ((0:ℝ), -(1/100:ℝ)).2) : ℝ × ℝ) =
      ((1:ℝ), (101/100:ℝ)) from by norm_num]
  rw [cDist_base, cDist_add, cLen_eq]
  rw [if_pos (by norm_num : (1:ℝ) < 10201/10000)]

/-- Side-b measure: the nudged mouse `(1, 0.99)` is closer to the edge than
the mouse, so the measure is the negative projected length. -/
theorem c1_measure_b : edbm_rip_edge_side_measure c1View eB1 = -2 := by
  have h1 : BM_face_other_vert_loop [3, 4, 5] 4 3 = some 5 := by decide
  have h2 : BM_face_other_vert_loop [3, 4, 5] 3 4 = some 5 := by decide
  have hcore : edbm_rip_edge_side_measure c1View eB1 =
      side_measure_core c1View 3 4 5 5 := by
    simp [edbm_rip_edge_side_measure, show eB1.lf = some [3, 4, 5] from rfl,
      show eB1.v1 = 3 from rfl, show eB1.v2 = 4 from rfl, h1, h2]
  have hp3 : c1View.proj (c1View.co 3) = ((0:ℝ), (0:ℝ)) := rfl
  have hp4 : c1View.proj (c1View.co 4) = ((2:ℝ), (0:ℝ)) := rfl
  have hfm : c1View.fmval = ((1:ℝ), (1:ℝ)) := rfl
  rw [hcore]
  simp only [side_measure_core]
  rw [hp3, hp4, hfm, c1Nudge_b]
  rw [show ((((1:ℝ), (1:ℝ)).1 - ((0:ℝ), (1/100:ℝ)).1,
      ((1:ℝ), (1:ℝ)).2 - ((0:ℝ), (1/100:ℝ)).2) : ℝ × ℝ) =
      ((1:ℝ), (99/100:ℝ)) from by norm_num]
  rw [cDist_base, cDist_sub, cLen_eq]
  rw [if_neg (by norm_num : ¬ (1:ℝ) < 9801/10000)]

/-- Each side of the concrete pair walks exactly its own edge. -/
theorem c1_walk_a : sideWalk c1Mesh c1St eA1 = [eA1] := by decide

theorem c1_walk_b : sideWalk c1Mesh c1St eB1 = [eB1] := by decide

/-- Side scores of the concrete pair. -/
theorem c1_score_a : side_score c1View c1Mesh c1St eA1 = 2 := by
  unfold side_score
  rw [c1_walk_a]
  simp [c1_measure_a]

theorem c1_score_b : side_score c1View c1Mesh c1St eB1 = -2 := by
  unfold side_score
  rw [c1_walk_b]
  simp [c1_measure_b]

/-- What one deselect re-walk does: every mesh edge matching a walked edge id
comes out deselected, and every mesh edge matching none survives unchanged. -/
theorem deselect_walk_spec (m : RMesh) (w : List REdge) :
    (∀ e ∈ (deselect_walk m w).edges, (∃ x ∈ w, x.eid = e.eid) → e.sel = false) ∧
    (∀ e ∈ m.edges, (∀ x ∈ w, x.eid ≠ e.eid) → e ∈ (deselect_walk m w).edges) := by
  constructor
  · intro e he hex
    simp only [deselect_walk, List.mem_map] at he
    obtain ⟨e0, he0, heq⟩ := he
    by_cases hc : (w.any fun x => x.eid == e0.eid) = true
    · rw [if_pos hc] at heq
      subst heq
      rfl
    · rw [if_neg hc] at heq
      subst heq
      obtain ⟨x, hx, hxe⟩ := hex
      exact absurd (List.any_eq_true.mpr ⟨x, hx, by simp [hxe]⟩) hc
  · intro e he hnot
    simp only [deselect_walk, List.mem_map]
    refine ⟨e, he, ?_⟩
    rw [if_neg ?_]
    simp only [List.any_eq_true, beq_iff_eq, not_exists]
    push_neg
    intro x hx
    exact hnot x hx

/-- A side walk is never empty: it contains at least its start edge. -/
theorem uid_walk_ne_nil (m : RMesh) (st : UidMap) (fuel : Nat) (e : REdge) (v : Nat) :
    uid_walk m st fuel e v ≠ [] := by
  cases fuel <;> simp [uid_walk]

theorem sideWalk_ne_nil (m : RMesh) (st : UidMap) (e : REdge) :
    sideWalk m st e ≠ [] :=
  uid_walk_ne_nil m st m.edges.length e (edbm_ripsel_edloop_pair_start_vert m st e)

/-- C1 counterexample: on the concrete two-sided mesh, side b has the LOWER
total score, yet after the deselect pass side b's edge is still selected and
it is side a — the higher-scoring side — whose edge has been deselected.
The source picks `lp->l_a->e` when `score_a > score_b` (editmesh_rip.cc:371),
i.e. it walks-and-deselects the HIGHER-scoring side, refuting the claim's
"lower total score is deselected".  The claim's other conjunct — the
mouse-facing side stays selected — is true of this run, and the instance
exhibits it: both projected edges lie on the line `y = 0`, the kept side b's
loop-face apex (vertex `5`) lies at `y = 3`, on the same side of the edge as
the mouse (`y = 1`), while the deselected side a's apex (vertex `2`) lies at
`y = -3`, on the far side — the pass deselects the edge loop facing away
(the source's own comment at editmesh_rip.cc:190). -/
theorem deselect_lower_score_claim_false :
    side_score c1View c1Mesh c1St eB1 < side_score c1View c1Mesh c1St eA1 ∧
    (deselect_pair c1View c1St c1Mesh ⟨eA1, eB1⟩).edges =
      [{ eA1 with sel := false }, eB1] ∧
    eB1.sel = true ∧
    (c1View.proj (c1View.co 0)).2 = 0 ∧ (c1View.proj (c1View.co 1)).2 = 0 ∧
    (c1View.proj (c1View.co 3)).2 = 0 ∧ (c1View.proj (c1View.co 4)).2 = 0 ∧
    0 < c1View.fmval.2 ∧
    0 < (c1View.proj (c1View.co 5)).2 ∧
    (c1View.proj (c1View.co 2)).2 < 0 := by
  have hsc : side_score c1View c1Mesh c1St eB1 < side_score c1View c1Mesh c1St eA1 := by
    rw [c1_score_a, c1_score_b]
    norm_num
  refine ⟨hsc, ?_, rfl, rfl, rfl, rfl, rfl,
    by rw [show c1View.fmval.2 = (1 : ℝ) from rfl]; norm_num,
    by rw [show (c1View.proj (c1View.co 5)).2 = (3 : ℝ) from rfl]; norm_num,
    by rw [show (c1View.proj (c1View.co 2)).2 = (-3 : ℝ) from rfl]; norm_num⟩
  have hdp : deselect_pair c1View c1St c1Mesh ⟨eA1, eB1⟩ =
      deselect_walk c1Mesh (sideWalk c1Mesh c1St eA1) := by
    simp only [deselect_pair]
    rw [if_pos hsc]
  rw [hdp, c1_walk_a]
  decide

/-- C1 (amended): whenever the two side walks of an `EdgeLoopPair` are
edge-disjoint and side a's total score is strictly HIGHER than side b's, the
deselect pass deselects side a's walk edge-by-edge along its full length,
while every mesh edge of side b's walk keeps its selection state. -/
theorem deselect_higher_score_spec (view : View) (st : UidMap) (m : RMesh) (lp : DPair)
    (hgt : side_score view m st lp.eb < side_score view m st lp.ea)
    (hdisj : ∀ x ∈ sideWalk m st lp.ea, ∀ y ∈ sideWalk m st lp.eb, x.eid ≠ y.eid) :
    (∀ e ∈ (deselect_pair view st m lp).edges,
      (∃ x ∈ sideWalk m st lp.ea, x.eid = e.eid) → e.sel = false) ∧
    (∀ e ∈ m.edges, (∃ x ∈ sideWalk m st lp.eb, x.eid = e.eid) →
      e ∈ (deselect_pair view st m lp).edges) := by
  have hdp : deselect_pair view st m lp = deselect_walk m (sideWalk m st lp.ea) := by
    simp only [deselect_pair]
    rw [if_pos hgt]
  rw [hdp]
  refine ⟨(deselect_walk_spec m (sideWalk m st lp.ea)).1, ?_⟩
  intro e he hex
  obtain ⟨y, hy, hye⟩ := hex
  refine (deselect_walk_spec m (sideWalk m st lp.ea)).2 e he ?_
  intro x hx
  rw [← hye]
  exact hdisj x hx y hy

/-- C1 witness: the amended theorem applied to the concrete two-sided mesh. -/
theorem deselect_higher_score_spec_witness :
    (side_score c1View c1Mesh c1St eB1 < side_score c1View c1Mesh c1St eA1 ∧
      ∀ x ∈ sideWalk c1Mesh c1St eA1, ∀ y ∈ sideWalk c1Mesh c1St eB1, x.eid ≠ y.eid) ∧
    (∀ e ∈ (deselect_pair c1View c1St c1Mesh ⟨eA1, eB1⟩).edges,
      (∃ x ∈ sideWalk c1Mesh c1St eA1, x.eid = e.eid) → e.sel = false) := by
  have hgt : side_score c1View c1Mesh c1St eB1 < side_score c1View c1Mesh c1St eA1 := by
    rw [c1_score_a, c1_score_b]
    norm_num
  exact ⟨⟨hgt, by decide⟩,
    (deselect_higher_score_spec c1View c1St c1Mesh ⟨eA1, eB1⟩ hgt (by decide)).1⟩

/-- C10: for each `EdgeLoopPair` whose two side walks are edge-disjoint, the
deselect pass deselects exactly one of the two (always nonempty) walks: every
result edge matching the losing walk comes out deselected, while every mesh
edge matching the other walk passes through with its selection state — and
all other fields — untouched. -/
theorem deselect_pair_frame (view : View) (st : UidMap) (m : RMesh) (lp : DPair)
    (hdisj : ∀ x ∈ sideWalk m st lp.ea, ∀ y ∈ sideWalk m st lp.eb, x.eid ≠ y.eid) :
    ∃ wlose wkeep : List REdge,
      ((wlose = sideWalk m st lp.ea ∧ wkeep = sideWalk m st lp.eb) ∨
       (wlose = sideWalk m st lp.eb ∧ wkeep = sideWalk m st lp.ea)) ∧
      wlose ≠ [] ∧ wkeep ≠ [] ∧
      (∀ e ∈ (deselect_pair view st m lp).edges,
        (∃ x ∈ wlose, x.eid = e.eid) → e.sel = false) ∧
      (∀ e ∈ m.edges, (∃ x ∈ wkeep, x.eid = e.eid) →
        e ∈ (deselect_pair view st m lp).edges) := by
  by_cases hsc : side_score view m st lp.eb < side_score view m st lp.ea
  · have hdp : deselect_pair view st m lp = deselect_walk m (sideWalk m st lp.ea) := by
      simp only [deselect_pair]
      rw [if_pos hsc]
    refine ⟨sideWalk m st lp.ea, sideWalk m st lp.eb, Or.inl ⟨rfl, rfl⟩,
      sideWalk_ne_nil m st lp.ea, sideWalk_ne_nil m st lp.eb, ?_, ?_⟩
    · rw [hdp]
      exact (deselect_walk_spec m (sideWalk m st lp.ea)).1
    · intro e he hex
      obtain ⟨y, hy, hye⟩ := hex
      rw [hdp]
      refine (deselect_walk_spec m (sideWalk m st lp.ea)).2 e he ?_
      intro x hx
      rw [← hye]
      exact hdisj x hx y hy
  · have hdp : deselect_pair view st m lp = deselect_walk m (sideWalk m st lp.eb) := by
      simp only [deselect_pair]
      rw [if_neg hsc]
    refine ⟨sideWalk m st lp.eb, sideWalk m st lp.ea, Or.inr ⟨rfl, rfl⟩,
      sideWalk_ne_nil m st lp.eb, sideWalk_ne_nil m st lp.ea, ?_, ?_⟩
    · rw [hdp]
      exact (deselect_walk_spec m (sideWalk m st lp.eb)).1
    · intro e he hex
      obtain ⟨y, hy, hye⟩ := hex
      rw [hdp]
      refine (deselect_walk_spec m (sideWalk m st lp.eb)).2 e he ?_
      intro x hx
      rw [← hye]
      exact (hdisj y hy x hx).symm

/-- C10 witness: the frame theorem applied to the concrete two-sided mesh
(under the trivial view; the conclusion holds for every view). -/
theorem deselect_pair_frame_witness :
    (∀ x ∈ sideWalk c1Mesh c1St eA1, ∀ y ∈ sideWalk c1Mesh c1St eB1, x.eid ≠ y.eid) ∧
    (∃ wlose wkeep : List REdge,
      ((wlose = sideWalk c1Mesh c1St eA1 ∧ wkeep = sideWalk c1Mesh c1St eB1) ∨
       (wlose = sideWalk c1Mesh c1St eB1 ∧ wkeep = sideWalk c1Mesh c1St eA1)) ∧
      wlose ≠ [] ∧ wkeep ≠ [] ∧
      (∀ e ∈ (deselect_pair zeroView c1St c1Mesh ⟨eA1, eB1⟩).edges,
        (∃ x ∈ wlose, x.eid = e.eid) → e.sel = false) ∧
      (∀ e ∈ c1Mesh.edges, (∃ x ∈ wkeep, x.eid = e.eid) →
        e ∈ (deselect_pair zeroView c1St c1Mesh ⟨eA1, eB1⟩).edges)) :=
  ⟨by decide, deselect_pair_frame zeroView c1St c1Mesh ⟨eA1, eB1⟩ (by decide)⟩

/-- Shape of an argmin-style fold: the accumulator's pick either passes
through unchanged or is replaced according to some element of the list. -/
theorem foldl_shape {α β : Type} (f : (Option α × ℝ) → β → (Option α × ℝ))
    (R : β → Option α → Prop)
    (hstep : ∀ acc x, (f acc x).1 = acc.1 ∨ R x (f acc x).1)
    (xs : List β) (init : Option α × ℝ) :
    (xs.foldl f init).1 = init.1 ∨ ∃ x ∈ xs, R x (xs.foldl f init).1 := by
  induction xs generalizing init with
  | nil => exact Or.inl rfl
  | cons x xs ih =>
    rw [List.foldl_cons]
    rcases ih (f init x) with h | ⟨y, hy, hR⟩
    · rcases hstep init x with h2 | h2
      · exact Or.inl (h.trans h2)
      · exact Or.inr ⟨x, List.mem_cons_self x xs, h ▸ h2⟩
    · exact Or.inr ⟨y, List.mem_cons_of_mem x hy, hR⟩

/-- `pick_min` either keeps the initial pick or picks an element of the
candidate list. -/
theorem pick_min_shape {α : Type} (cond : α → Bool) (dOf : α → ℝ)
    (init : Option α × ℝ) (xs : List α) :
    (pick_min cond dOf init xs).1 = init.1 ∨
    ∃ e ∈ xs, (pick_min cond dOf init xs).1 = some e := by
  unfold pick_min
  refine foldl_shape _ (fun x o => o = some x) ?_ xs init
  intro acc x
  by_cases hc : cond x = true
  · rw [if_pos hc]
    cases hacc : acc.1 with
    | none => simp [hacc]
    | some a =>
      simp only [hacc]
      split
      · exact Or.inr rfl
      · exact Or.inl hacc
  · rw [if_neg hc]
    exact Or.inl rfl

/-- A `pick_min` pick, once present, never disappears. -/
theorem pick_min_isSome_mono {α : Type} (cond : α → Bool) (dOf : α → ℝ)
    (init : Option α × ℝ) (xs : List α) (h : init.1.isSome = true) :
    (pick_min cond dOf init xs).1.isSome = true := by
  induction xs generalizing init with
  | nil => exact h
  | cons x xs ih =>
    unfold pick_min
    rw [List.foldl_cons]
    apply ih
    by_cases hc : cond x = true
    · rw [if_pos hc]
      cases hacc : init.1 with
      | none => rw [hacc] at h; cases h
      | some a =>
        simp only [hacc]
        split <;> simp [hacc]
    · rw [if_neg hc]
      exact h

/-- `pick_min` returns a pick as soon as one candidate passes the filter. -/
theorem pick_min_isSome {α : Type} (cond : α → Bool) (dOf : α → ℝ)
    (init : Option α × ℝ) (xs : List α) (x : α) (hx : x ∈ xs) (hc : cond x = true) :
    (pick_min cond dOf init xs).1.isSome = true := by
  induction xs generalizing init with
  | nil => cases hx
  | cons y ys ih =>
    unfold pick_min
    rw [List.foldl_cons]
    rcases List.mem_cons.mp hx with rfl | hmem
    · apply pick_min_isSome_mono
      rw [if_pos hc]
      cases hacc : init.1 with
      | none => simp
      | some a =>
        simp only [hacc]
        split <;> simp [hacc]
    · exact ih _ hmem

/-- The 3-faces/3-edges refinement either keeps the incoming pick or replaces
it by the non-corner edge search of one of the vertex's face corners. -/
theorem vert_best_33_shape (view : View) (m : VMesh) (v : Nat) (init : Option VEdge × ℝ) :
    (vert_best_33 view m v init).1 = init.1 ∨
    ∃ l ∈ m.vloops v, (vert_best_33 view m v init).1 =
      (m.vedges v).find? (fun e => !(e.eid == l.e || e.eid == l.eprev)) := by
  unfold vert_best_33
  refine foldl_shape _
    (fun l o => o = (m.vedges v).find? (fun e => !(e.eid == l.e || e.eid == l.eprev)))
    ?_ (m.vloops v) init
  intro acc l
  simp only []
  cases hacc : acc.1 with
  | none => simp [hacc]
  | some a =>
    simp only [hacc]
    split
    · exact Or.inr rfl
    · exact Or.inl hacc

/-- The post-split select pass never touches the face count. -/
theorem select_best_vert_totface (view : View) (m : VMesh) :
    (select_best_vert view m).totface = m.totface := by
  unfold select_best_vert
  cases h : (m.verts.filter (fun x => m.vsel x)).foldl (fun (acc : Option Nat × ℝ) x =>
    (m.vloops x).foldl (fun acc2 l =>
      let d := edbm_rip_edgedist_squared view (view.co x) (m.loop_tangent l.lid) INSET_DEFAULT
      match acc2.1 with
      | none => (some x, d)
      | some _ => if d < acc2.2 then (some x, d) else acc2) acc) (none, 0) with
  | mk b s => cases b <;> simp [h]

/-- Without the fill option the finishing tail never touches the face count. -/
theorem vert_rip_finish_totface (view : View) (m : VMesh) (o : Nat) :
    (vert_rip_finish view m false o).2.totface = m.totface := by
  simp only [vert_rip_finish, Bool.false_and, Bool.false_eq_true, if_false]
  split <;> simp [select_best_vert_totface]

/-- The main split branch on an interior best edge (no boundary, 2-manifold,
two radial loops, more than two faces at the vertex): one new vertex, faces
untouched, finished. -/
theorem vert_rip_split_interior (view : View) (m : VMesh) (v : Nat) (e_best : VEdge)
    (hb : e_best.boundary = false) (hm : e_best.manifold = true)
    (hr : e_best.nradial = 2) (hl2 : (m.vloops v).length ≠ 2) :
    (vert_rip_split view m v e_best false m.verts.length).1 = WmStatus.finished ∧
    (vert_rip_split view m v e_best false m.verts.length).2.verts.length =
      m.verts.length + 1 ∧
    (vert_rip_split view m v e_best false m.verts.length).2.totface = m.totface := by
  simp only [vert_rip_split]
  have hcond : ¬((e_best.boundary || ((m.vloops v).length == 2)) = true) := by
    simp [hb, hl2]
  rw [if_neg hcond, if_pos hm, hr]
  rw [if_pos (by norm_num : (2 : Nat) ≠ 0)]
  refine ⟨?_, ?_, ?_⟩
  · apply vert_rip_finish_status
    simp
  · rw [vert_rip_finish_verts]
    simp
  · rw [vert_rip_finish_totface]

/-- C4: for any mesh whose active vertex is interior — it has edges, is not
wire, its region is manifold, every incident edge is visible, 2-manifold with
two radial loops, neither boundary nor wire, and it carries at least three
face corners (with, in the 3-corner case, each corner leaving one incident
edge unused) — the plain (no-fill) vertex rip finishes, increases the vertex
count by exactly one, and leaves the face count unchanged. -/
theorem vert_rip_interior_spec (view : View) (m : VMesh) (v : Nat)
    (hact : m.active = some v)
    (hne : m.vedges v ≠ [])
    (hwire : m.vwire v = false)
    (hmani : m.vmanifold_region v = true)
    (hl3 : 3 ≤ (m.vloops v).length)
    (hedges : ∀ e ∈ m.vedges v, e.hidden = false ∧ e.manifold = true ∧
      e.boundary = false ∧ e.wire = false ∧ e.nradial = 2)
    (h33 : (m.vloops v).length = 3 → ∀ l ∈ m.vloops v,
      ∃ e ∈ m.vedges v, ¬(e.eid = l.e ∨ e.eid = l.eprev)) :
    (edbm_rip_invoke__vert view m false).1 = WmStatus.finished ∧
    (edbm_rip_invoke__vert view m false).2.verts.length = m.verts.length + 1 ∧
    (edbm_rip_invoke__vert view m false).2.totface = m.totface := by
  have hpick0 : ∃ e ∈ m.vedges v,
      (vert_pick_best_edge view m v (m.vmanifold_region v)).1 = some e := by
    obtain ⟨x, hx⟩ := List.exists_mem_of_ne_nil _ hne
    have hcx : (!x.hidden && (!(m.vmanifold_region v) || x.manifold)) = true := by
      simp [(hedges x hx).1, (hedges x hx).2.1]
    unfold vert_pick_best_edge
    have hsome := pick_min_isSome
      (fun e => !e.hidden && (!(m.vmanifold_region v) || e.manifold))
      (fun e => edbm_rip_edgedist_squared view (view.co e.v1) (view.co e.v2) INSET_DEFAULT)
      (none, 0) (m.vedges v) x hx hcx
    rcases pick_min_shape
      (fun e => !e.hidden && (!(m.vmanifold_region v) || e.manifold))
      (fun e => edbm_rip_edgedist_squared view (view.co e.v1) (view.co e.v2) INSET_DEFAULT)
      (none, 0) (m.vedges v) with h | h
    · rw [h] at hsome
      cases hsome
    · exact h
  have htb : ((m.vedges v).filter (fun e => e.boundary || e.wire)) = [] := by
    rw [List.filter_eq_nil_iff]
    intro e he
    simp [(hedges e he).2.2.1, (hedges e he).2.2.2.1]
  have hl2 : (m.vloops v).length ≠ 2 := by omega
  simp only [edbm_rip_invoke__vert, hact]
  rw [if_neg (by simp [hne] : ¬((m.vedges v).isEmpty = true))]
  simp only [hmani, Bool.not_true, Bool.and_false, Bool.false_eq_true, if_false]
  rw [htb]
  simp only [List.length_nil, hwire, Bool.not_false, Bool.true_and, Bool.false_and,
    Bool.or_false]
  rw [if_neg (by norm_num : ¬(decide (2 < 0) = true))]
  by_cases h33b : (((m.vloops v).length == 3) && ((m.vedges v).length == 3)) = true
  · rw [if_pos h33b]
    have hpb : ∃ e ∈ m.vedges v,
        (vert_best_33 view m v (vert_pick_best_edge view m v true)).1 = some e := by
      rcases vert_best_33_shape view m v (vert_pick_best_edge view m v true) with h | ⟨l, hl, h⟩
      · rw [h]
        rw [hmani] at hpick0
        exact hpick0
      · have hlen3 : (m.vloops v).length = 3 := by
          simp only [Bool.and_eq_true, beq_iff_eq] at h33b
          exact h33b.1
        obtain ⟨e, he, hpe⟩ := h33 hlen3 l hl
        have hfind : ((m.vedges v).find?
            (fun e => !(e.eid == l.e || e.eid == l.eprev))).isSome = true := by
          rw [List.find?_isSome]
          exact ⟨e, he, by simpa using hpe⟩
        cases hfound : (m.vedges v).find? (fun e => !(e.eid == l.e || e.eid == l.eprev)) with
        | none => rw [hfound] at hfind; cases hfind
        | some e2 =>
          exact ⟨e2, List.mem_of_find?_eq_some hfound, h.trans hfound⟩
    obtain ⟨e_best, hmem, heq⟩ := hpb
    simp only [heq]
    have he := hedges e_best hmem
    exact vert_rip_split_interior view m v e_best he.2.2.1 he.2.1 he.2.2.2.2 hl2
  · rw [if_neg h33b]
    obtain ⟨e_best, hmem, heq⟩ := hpick0
    rw [hmani] at heq
    simp only [heq]
    have he := hedges e_best hmem
    exact vert_rip_split_interior view m v e_best he.2.2.1 he.2.1 he.2.2.2.2 hl2

/-- C4 witness: the theorem applied to the concrete four-face interior fan. -/
theorem vert_rip_interior_spec_witness :
    (wC4Mesh.active = some 0 ∧ wC4Mesh.vedges 0 ≠ [] ∧ wC4Mesh.vwire 0 = false ∧
      wC4Mesh.vmanifold_region 0 = true ∧ 3 ≤ (wC4Mesh.vloops 0).length ∧
      (∀ e ∈ wC4Mesh.vedges 0, e.hidden = false ∧ e.manifold = true ∧
        e.boundary = false ∧ e.wire = false ∧ e.nradial = 2)) ∧
    (edbm_rip_invoke__vert zeroView wC4Mesh false).1 = WmStatus.finished ∧
    (edbm_rip_invoke__vert zeroView wC4Mesh false).2.verts.length =
      wC4Mesh.verts.length + 1 ∧
    (edbm_rip_invoke__vert zeroView wC4Mesh false).2.totface = wC4Mesh.totface := by
  refine ⟨⟨rfl, by decide, rfl, rfl, by decide, by decide⟩, ?_⟩
  exact vert_rip_interior_spec zeroView wC4Mesh 0 rfl (by decide) rfl rfl (by decide)
    (by decide) (by decide)

end RipSpec
